import Mathlib

set_option maxHeartbeats 2000000
set_option maxRecDepth 8000

/-!
Verification development for the Yellow-Pages scraping pipeline
(`ScrapYelp.py`, `WebsiteContactFinder.py`).  The Python code is shallowly
embedded: pure string/HTML processing becomes functions on `List Char`,
the stateful CSV batch writer becomes explicit state passing on a
`PipelineState` record, network and browser calls become oracle function
parameters, and the CSV file contents become a list of rows carried in the
state.
-/

/-! ### Generic list/string utilities mirroring Python string methods -/

/-- Boolean prefix test: `begins p l` holds when the list `l` starts with `p`.
Models Python's `str.startswith`. -/
def begins : List Char → List Char → Bool
  | [], _ => true
  | _ :: _, [] => false
  | p :: ps, c :: cs => p == c && begins ps cs

/-- Remove the maximal trailing run of characters satisfying `f`.
Together with `List.dropWhile` this models Python's two-sided `strip`. -/
def dropTrailingIf (f : Char → Bool) : List Char → List Char
  | [] => []
  | c :: cs =>
    let r := dropTrailingIf f cs
    if r.isEmpty && f c then [] else c :: r

/-- Model of Python's `str.strip()` (no argument): remove leading and trailing
whitespace.  Lean's `Char.isWhitespace` covers the ASCII whitespace that occurs
in this pipeline's data. -/
def pyStrip (l : List Char) : List Char :=
  dropTrailingIf Char.isWhitespace (l.dropWhile Char.isWhitespace)

/-- Model of Python's `str.strip('/')`: remove leading and trailing slashes. -/
def stripSlash (l : List Char) : List Char :=
  dropTrailingIf (fun c => c == '/') (l.dropWhile (fun c => c == '/'))

/-- Python `set.add` on a list carrying set semantics: insert `x` unless
already present.  Insertion order is kept as a concrete representative of the
set's contents; properties proved about it are order-independent. -/
def addSet {α : Type} [DecidableEq α] (l : List α) (x : α) : List α :=
  if x ∈ l then l else l ++ [x]

/-- Contents of a Python `set` built by inserting the elements of `l` in
order (first occurrence kept). -/
def setOfList {α : Type} [DecidableEq α] (l : List α) : List α :=
  l.foldl addSet []

/-! ### `ScrapYelp.py` — `SearchData` (lines 45-64) -/

/-- `SearchData` dataclass of `ScrapYelp.py`: a scraped business stub with a
`name` (the dedup key) and a `url`. -/
structure SearchData where
  name : String
  url : String
deriving DecidableEq, Repr

/-- Models `SearchData.check_string_fields` applied to a single string field
(`ScrapYelp.py` lines 54-64): an empty string becomes the placeholder
`"No <field-name>"`; any other string is stripped of surrounding
whitespace. -/
def check_string_field (fieldName value : String) : String :=
  if value = "" then "No " ++ fieldName else String.mk (pyStrip value.data)

/-- Models constructing `SearchData(name=..., url=...)`: `__post_init__` runs
`check_string_fields` over both string fields. -/
def mkSearchData (name url : String) : SearchData :=
  { name := check_string_field "name" name
    url := check_string_field "url" url }

/-! ### `ScrapYelp.py` — `DataPipeline` (lines 71-118) -/

/-- State of a `DataPipeline` instance.  `stored` models the rows present in
the backing CSV file (the header row is not modeled; it carries no records).
`flush_count` is an observational counter of completed flushes that wrote at
least one row; it changes no behavior. -/
structure PipelineState where
  names_seen : List String
  storage_queue : List SearchData
  storage_queue_limit : Nat
  csv_filename : String
  csv_file_open : Bool
  stored : List SearchData
  flush_count : Nat
deriving DecidableEq, Repr

/-- `DataPipeline.__init__(csv_filename, storage_queue_limit)`. -/
def initPipeline (filename : String) (limit : Nat) : PipelineState :=
  { names_seen := []
    storage_queue := []
    storage_queue_limit := limit
    csv_filename := filename
    csv_file_open := false
    stored := []
    flush_count := 0 }

/-- `DataPipeline.save_to_csv` (lines 80-99), successful write: set
`csv_file_open`, move the queue into `data_to_save`, clear the queue, return
early if there is no data (leaving `csv_file_open` true, as the code does),
otherwise append every row to the file and reset `csv_file_open`. -/
def save_to_csv (st : PipelineState) : PipelineState :=
  let st1 : PipelineState := { st with csv_file_open := true }
  let data := st1.storage_queue
  let st2 : PipelineState := { st1 with storage_queue := [] }
  if data = [] then st2
  else
    { st2 with
      stored := st2.stored ++ data
      csv_file_open := false
      flush_count := st2.flush_count + 1 }

/-- `DataPipeline.save_to_csv` when the row-writing loop raises after
`rows_written` successful `writer.writerow` calls (e.g. disk full or
permission denied): by that point the queue has already been cleared into the
local `data_to_save`, there is no exception handler, so the exception
propagates with only the prefix written, the queue empty, and
`csv_file_open` left `true` (the reset on line 99 is never reached).  The
flush did not complete, so `flush_count` is not incremented. -/
def save_to_csv_write_failure (st : PipelineState) (rows_written : Nat) : PipelineState :=
  let st1 : PipelineState := { st with csv_file_open := true }
  let data := st1.storage_queue
  let st2 : PipelineState := { st1 with storage_queue := [] }
  { st2 with stored := st2.stored ++ data.take rows_written }

/-- `DataPipeline.is_duplicate` (lines 101-106): membership test on
`names_seen`, which also records an unseen name.  Returns the updated state
and the boolean result. -/
def is_duplicate (st : PipelineState) (d : SearchData) : PipelineState × Bool :=
  if d.name ∈ st.names_seen then (st, true)
  else ({ st with names_seen := st.names_seen ++ [d.name] }, false)

/-- `DataPipeline.add_data` (lines 108-112): drop duplicates, enqueue
otherwise, and flush when the queue has reached the limit and no save is in
progress. -/
def add_data (st : PipelineState) (d : SearchData) : PipelineState :=
  let p := is_duplicate st d
  if p.2 then p.1
  else
    let st2 : PipelineState := { p.1 with storage_queue := p.1.storage_queue ++ [d] }
    if st2.storage_queue_limit ≤ st2.storage_queue.length ∧ st2.csv_file_open = false then
      save_to_csv st2
    else st2

/-- `DataPipeline.close_pipeline` (lines 114-118): flush the remaining queued
records, if any.  (The `time.sleep(3)` wait when a save is in progress is a
real-time concern with no effect on the sequential state.) -/
def close_pipeline (st : PipelineState) : PipelineState :=
  if 0 < st.storage_queue.length then save_to_csv st else st

/-- Submitting a list of records, in order, to a fresh pipeline with the given
queue limit. -/
def runAdds (limit : Nat) (rs : List SearchData) : PipelineState :=
  rs.foldl add_data (initPipeline "out.csv" limit)

/-- Specification-side definition (from the specification's words, for
comparison with the code model): first-seen-wins filtering of a submission
sequence by the dedup key `name` — the first record with a given name is kept,
every later record with the same name is dropped. -/
def dedupFirst (rs : List SearchData) : List SearchData :=
  rs.foldl (fun acc r => if r.name ∈ acc.map SearchData.name then acc else acc ++ [r]) []

/-! ### `WebsiteContactFinder.py` — email regular expression (lines 48-49)

`EMAIL_REGEX = re.compile(r'[a-zA-Z0-9._%+-]+@[a-zA-Z0-9.-]+\.[a-zA-Z]{2,}')`

The matcher below is a direct model of Python `re` semantics for this one
pattern: `search` tries each start position left to right; at a position the
greedy `[...]+` classes munch maximally; the only productive backtracking is
shrinking the domain class run from the right to place the literal dot, tried
from the longest split down. -/

/-- ASCII letter, the regex class `[a-zA-Z]`. -/
def isAsciiAlpha (c : Char) : Bool :=
  (65 ≤ c.toNat && c.toNat ≤ 90) || (97 ≤ c.toNat && c.toNat ≤ 122)

/-- ASCII digit, the regex class `[0-9]`. -/
def isAsciiDigit (c : Char) : Bool :=
  48 ≤ c.toNat && c.toNat ≤ 57

/-- The regex class `[a-zA-Z0-9._%+-]` (local part of an email). -/
def isLocalChar (c : Char) : Bool :=
  isAsciiAlpha c || isAsciiDigit c ||
    decide (c = '.') || decide (c = '_') || decide (c = '%') ||
    decide (c = '+') || decide (c = '-')

/-- The regex class `[a-zA-Z0-9.-]` (domain part of an email). -/
def isDomainChar (c : Char) : Bool :=
  isAsciiAlpha c || isAsciiDigit c || decide (c = '.') || decide (c = '-')

/-- The greedy `[a-zA-Z]{2,}` top-level-domain run (caller checks the length
bound). -/
def tldRun (l : List Char) : List Char := l.takeWhile isAsciiAlpha

/-- One backtracking attempt for `[a-zA-Z0-9.-]+\.[a-zA-Z]{2,}` inside the
maximal domain-class munch `m`: let the `+` consume exactly `k` characters,
require a literal `'.'` next and a greedy alphabetic run of length at least
two after it. -/
def domTry (m : List Char) (k : Nat) : Option (List Char) :=
  if 1 ≤ k ∧ (m.drop k).head? = some '.' then
    if 2 ≤ (tldRun (m.drop (k + 1))).length then
      some (m.take k ++ '.' :: tldRun (m.drop (k + 1)))
    else none
  else none

/-- Backtracking search over the split point `k`, from `n` down to `1`,
mirroring the regex engine shrinking the greedy `[a-zA-Z0-9.-]+` from its
maximal extent. -/
def domSearch (m : List Char) : Nat → Option (List Char)
  | 0 => none
  | k + 1 =>
    match domTry m (k + 1) with
    | some r => some r
    | none => domSearch m k

/-- Match of `[a-zA-Z0-9.-]+\.[a-zA-Z]{2,}` at the start of the maximal
domain munch `m`, with Python's greedy-then-backtrack choice of split. -/
def domMatch (m : List Char) : Option (List Char) := domSearch m m.length

/-- Match of the full email pattern anchored at the start of `cs` (what the
regex engine attempts at one scan position): maximal local-part munch, a
literal `'@'`, then the domain/TLD tail inside the maximal domain munch. -/
def matchEmailAt (cs : List Char) : Option (List Char) :=
  if cs.takeWhile isLocalChar = [] then none
  else
    match cs.drop (cs.takeWhile isLocalChar).length with
    | '@' :: rest =>
      match domMatch (rest.takeWhile isDomainChar) with
      | some d => some (cs.takeWhile isLocalChar ++ '@' :: d)
      | none => none
    | _ => none

/-- `EMAIL_REGEX.search`: leftmost scan position whose anchored match
succeeds. -/
def searchEmail : List Char → Option (List Char)
  | [] => none
  | c :: cs =>
    match matchEmailAt (c :: cs) with
    | some m => some m
    | none => searchEmail cs

/-- Full-string match of `[a-zA-Z0-9.-]+\.[a-zA-Z]{2,}` over all of `r`:
some split `k ≥ 1` has domain characters before, a literal dot at `k`, and an
all-alphabetic remainder of length at least two reaching the end. -/
def tailFull (r : List Char) : Bool :=
  (List.range (r.length + 1)).any fun k =>
    decide (1 ≤ k) && ((r.drop k).head? == some '.') &&
      (r.take k).all isDomainChar &&
      (r.drop (k + 1)).all isAsciiAlpha && decide (2 ≤ r.length - (k + 1))

/-- `EMAIL_REGEX.fullmatch`: the entire string is
`local-part '@' domain '.' tld`. -/
def fullmatchEmail (cs : List Char) : Bool :=
  !(cs.takeWhile isLocalChar).isEmpty &&
    match cs.drop (cs.takeWhile isLocalChar).length with
    | '@' :: rest => tailFull rest
    | _ => false

/-- `_extraer_primer_email_valido_de_texto` (`WebsiteContactFinder.py`
lines 79-87): search the text, lowercase the match, re-validate with a
full-string match, return the result or `None`. -/
def extraerPrimerEmail (texto : List Char) : Option (List Char) :=
  match searchEmail texto with
  | some m =>
    if fullmatchEmail (m.map Char.toLower) then some (m.map Char.toLower)
    else none
  | none => none

/-! ### `WebsiteContactFinder.py` — fast path (lines 104-130)

`buscar_primer_email_con_requests` fetches a URL, then (1) walks the parsed
anchors in document order looking for a valid `mailto:` target, (2) falls back
to the first email found in the page text.  HTML parsing (BeautifulSoup) and
the HTTP session are collaborators; a fetched page is modeled by the raw text
`source` plus the `href` attribute values `anchors`, in document order, that
the parser extracts from it. -/

/-- A fetched page as seen by the extractors: raw page text and the anchor
`href` values the HTML parser finds in it, in document order. -/
structure PageModel where
  source : List Char
  anchors : List (List Char)
deriving DecidableEq, Repr

/-- Processing of one anchor (`WebsiteContactFinder.py` lines 113-119):
lowercase the `href`; if it starts with `mailto:`, drop the prefix, cut the
query component at the first `'?'`, strip whitespace, and accept the result
only if it fully matches the email pattern. -/
def mailto_email_of_href (href : List Char) : Option (List Char) :=
  let hl := href.map Char.toLower
  if begins "mailto:".data hl then
    let e := pyStrip ((hl.drop 7).takeWhile (fun c => c != '?'))
    if fullmatchEmail e then some e else none
  else none

/-- `buscar_primer_email_con_requests`, successful-fetch case: first valid
`mailto:` target in document order wins; otherwise the first email in the
page text. -/
def buscar_primer_email_requests (anchors : List (List Char)) (texto : List Char) :
    Option (List Char) :=
  match anchors.findSome? mailto_email_of_href with
  | some e => some e
  | none => extraerPrimerEmail texto

/-! ### URL handling (`urllib.parse` collaborator models) -/

/-- Character allowed in a URL scheme after the first letter
(`urllib.parse.scheme_chars`). -/
def isSchemeChar (c : Char) : Bool :=
  isAsciiAlpha c || isAsciiDigit c || decide (c = '+') || decide (c = '-') || decide (c = '.')

/-- Model of `urllib.parse`'s scheme detection (a standard-library
collaborator): if the text up to the first `':'` is nonempty, starts with a
letter and consists of scheme characters, split it off (lowercased) together
with the remainder after the colon. -/
def splitScheme (u : List Char) : Option (List Char × List Char) :=
  let pre := u.takeWhile (fun c => c != ':')
  match u.drop pre.length with
  | ':' :: rest =>
    if pre ≠ [] ∧ (pre.headD ' ').isAlpha ∧ pre.all isSchemeChar then
      some (pre.map Char.toLower, rest)
    else none
  | _ => none

/-- Characters that terminate the network-location part of a URL. -/
def isNetlocEnd (c : Char) : Bool := c == '/' || c == '?' || c == '#'

/-- Take the URL path up to the query (`'?'`) or fragment (`'#'`). -/
def takeUntilQF (l : List Char) : List Char :=
  l.takeWhile (fun c => c != '?' && c != '#')

/-- Split a URL into scheme, host and the part after the host.  Model of
`urllib.parse.urlparse` for the absolute `http(s)` URLs this pipeline
handles. -/
def netlocSplit (base : List Char) : List Char × List Char × List Char :=
  let p := match splitScheme base with
    | some (s, r) => (s, r)
    | none => ([], base)
  if begins "//".data p.2 then
    let hostpart := (p.2.drop 2).takeWhile (fun c => !isNetlocEnd c)
    (p.1, hostpart, (p.2.drop 2).drop hostpart.length)
  else (p.1, [], p.2)

/-- `urlparse(url).path`: the part after the host, up to the query or
fragment. -/
def urlPath (url : List Char) : List Char :=
  let rest := match splitScheme url with
    | some (_, r) => r
    | none => url
  if begins "//".data rest then
    takeUntilQF ((rest.drop 2).dropWhile (fun c => !isNetlocEnd c))
  else takeUntilQF rest

/-- The directory of a base URL: scheme, host, and path up to (and
including) the last slash — `"/"` when the base path is empty. -/
def baseDirOf (base : List Char) : List Char :=
  let t := netlocSplit base
  let p := takeUntilQF t.2.2
  let d := (p.reverse.dropWhile (fun c => c != '/')).reverse
  t.1 ++ ':' :: '/' :: '/' :: t.2.1 ++ (if d = [] then ['/'] else d)

/-- Model of `urllib.parse.urljoin` (a standard-library collaborator) for the
cases this pipeline exercises: an empty reference yields the base; a
reference with a scheme is already absolute; a protocol-relative reference
keeps the base scheme; a root-relative reference keeps scheme and host; any
other reference replaces the last segment of the base path. -/
def urljoinModel (base rel : List Char) : List Char :=
  if rel = [] then base
  else if (splitScheme rel).isSome then rel
  else if begins "//".data rel then (netlocSplit base).1 ++ ':' :: rel
  else if begins "/".data rel then
    let t := netlocSplit base
    t.1 ++ ':' :: '/' :: '/' :: t.2.1 ++ rel
  else baseDirOf base ++ rel

/-! ### `WebsiteContactFinder.py` — Facebook profile links (lines 51-57, 89-102) -/

/-- The plain alternatives of the negative lookahead in
`FACEBOOK_PROFILE_REGEX`: text right after `facebook.com/` must not start
with any of these.  Listed in source order (including the repeated entries of
the source pattern). -/
def FB_DENY_STRINGS : List String :=
  ["sharer", "plugins", "dialog", "login.php", "share.php", "video.php",
   "watch", "events", "groups", "search", "help", "legal", "terms", "privacy",
   "policies", "maps", "notes", "photo.php", "photos", "media", "marketplace",
   "jobs", "games", "fundraisers", "developers", "careers", "business",
   "stories", "live", "messages", "notifications", "bookmarks", "ads",
   "gaming", "page_insights", "insights", "activity_log", "settings",
   "recommendations", "reviews", "offers", "services", "shop", "community",
   "menu", "events", "videos", "posts", "questions", "groups", "albums",
   "applications"]

/-- The regex word class `\w` (ASCII relevant range). -/
def isWordChar (c : Char) : Bool :=
  isAsciiAlpha c || isAsciiDigit c || decide (c = '_')

/-- The remaining lookahead alternative `pages(?:/\w{0,15})?/badge`: either
`pages/badge` directly, or `pages/` followed by a word run of at most 15
characters and `/badge`. -/
def pagesBadgeDeny (s : List Char) : Bool :=
  begins "pages/badge".data s ||
    (begins "pages/".data s &&
      (decide (((s.drop 6).takeWhile isWordChar).length ≤ 15) &&
        begins "/badge".data ((s.drop 6).drop ((s.drop 6).takeWhile isWordChar).length)))

/-- The negative lookahead of `FACEBOOK_PROFILE_REGEX`: true when some
alternative matches at the position right after `facebook.com/`. -/
def fbDeny (s : List Char) : Bool :=
  FB_DENY_STRINGS.any (fun d => begins d.data s) || pagesBadgeDeny s

/-- The scheme/host alternatives matched by
`https?://(?:www\.)?facebook\.com/`. -/
def FB_URL_STARTS : List String :=
  ["https://www.facebook.com/", "https://facebook.com/",
   "http://www.facebook.com/", "http://facebook.com/"]

/-- Character of the regex class `[\w.-]` (a profile path segment). -/
def isSegChar (c : Char) : Bool :=
  isWordChar c || decide (c = '.') || decide (c = '-')

/-- The text following the matched `https?://(?:www\.)?facebook\.com/`
opening, when the URL starts with one of its four concrete forms. -/
def fbRest (url : List Char) : Option (List Char) :=
  FB_URL_STARTS.findSome? fun p =>
    if begins p.data url then some (url.drop p.data.length) else none

/-- `FACEBOOK_PROFILE_REGEX.match(url)` succeeds: the URL starts with the
scheme/host opening, the negative lookahead passes, and the capture
`([\w.-]+(?:/[\w.-]+)*)/?` can consume at least its first character
(everything after that first character is optional, and `re.match` does not
require reaching the end of the string). -/
def fbMatch (url : List Char) : Bool :=
  match fbRest url with
  | some rest =>
    !fbDeny rest &&
      (match rest.head? with
       | some c => isSegChar c
       | none => false)
  | none => false

/-- Loop body of `buscar_facebook_links_en_html` for one anchor: resolve the
`href` against the base URL, keep the result when the profile regex matches
and the slash-trimmed path is neither empty nor one of the generic
placeholder paths. -/
def fbStep (base_url : List Char) (links : List (List Char)) (href : List Char) :
    List (List Char) :=
  if fbMatch (urljoinModel base_url href) then
    if stripSlash (urlPath (urljoinModel base_url href)) ≠ [] ∧
        stripSlash (urlPath (urljoinModel base_url href)) ∉
          ["facebook".data, "pg".data, "profile.php".data] then
      addSet links (urljoinModel base_url href)
    else links
  else links

/-- `buscar_facebook_links_en_html` (`WebsiteContactFinder.py` lines
89-102): for each anchor `href` (document order), resolve it against the
base URL, keep it when the profile regex matches and the slash-trimmed path
is neither empty nor one of the generic placeholder paths; collect into a
set. -/
def buscar_facebook_links (anchors : List (List Char)) (base_url : List Char) :
    List (List Char) :=
  anchors.foldl (fbStep base_url) []

/-! ### `WebsiteContactFinder.py` — deep path (lines 43-46, 132-175) -/

/-- `COMMON_CONTACT_PATHS` (lines 43-46): the configured candidate path
segments, the empty one denoting the home page. -/
def COMMON_CONTACT_PATHS : List String :=
  ["", "contact", "contacto", "contact-us", "contactus", "about",
   "about-us", "nosotros", "impressum", "legal", "aviso-legal", "contactenos"]

/-- Line 143: prepend `http://` when the base URL has no scheme. -/
def ensure_scheme (base : List Char) : List Char :=
  if (splitScheme base).isSome then base else "http://".data ++ base

/-- The contents of the candidate-URL set `urls_a_visitar` (lines 141-145):
the base joined with each configured path, de-duplicated by final URL.  The
list keeps first-occurrence order as a concrete representative; the Python
`set` has no specified enumeration order. -/
def candidate_urls (base : List Char) : List (List Char) :=
  setOfList (COMMON_CONTACT_PATHS.map fun p => urljoinModel (ensure_scheme base) p.data)

/-- Loop state of `buscar_datos_contacto_con_selenium`: the email found so
far, the accumulated Facebook link set, and (observationally) the URLs
navigated to so far. -/
structure DeepAcc where
  email_final : Option (List Char)
  facebook_links_final : List (List Char)
  visited : List (List Char)
deriving DecidableEq, Repr

/-- The visiting loop of `buscar_datos_contacto_con_selenium` (lines
147-173) over a given enumeration of the candidate-URL set.  `fetch` models
`driver.get` + ready-state wait + `page_source`; `none` is a navigation
error, which the loop skips.  A page with an email ends the search (the
loop body `continue`s and the next iteration's check breaks); otherwise the
page's Facebook links are united into the accumulator. -/
def deepLoop (fetch : List Char → Option PageModel) :
    List (List Char) → DeepAcc → DeepAcc
  | [], acc => acc
  | url :: rest, acc =>
    if acc.email_final.isSome then acc
    else
      match fetch url with
      | none => deepLoop fetch rest { acc with visited := acc.visited ++ [url] }
      | some page =>
        match extraerPrimerEmail page.source with
        | some e =>
          deepLoop fetch rest
            { acc with visited := acc.visited ++ [url], email_final := some e }
        | none =>
          deepLoop fetch rest
            { acc with
              visited := acc.visited ++ [url]
              facebook_links_final :=
                (buscar_facebook_links page.anchors url).foldl addSet
                  acc.facebook_links_final }

/-- `buscar_datos_contacto_con_selenium` (lines 132-175) run over `enum`, the
enumeration of the candidate-URL set produced by `list(urls_a_visitar)`.
Python's set iteration order is hash-dependent and unspecified, so the
enumeration is a parameter; a valid run supplies any permutation of
`candidate_urls base`.  Returns the email and the Facebook-link list. -/
def buscar_datos_contacto_selenium (fetch : List Char → Option PageModel)
    (enum : List (List Char)) : Option (List Char) × List (List Char) :=
  let acc := deepLoop fetch enum ⟨none, [], []⟩
  (acc.email_final, acc.facebook_links_final)

/-- Specification-side definition (first-match-wins reading of the loop):
the email produced by visiting one URL — fetch the page, then run the text
email extractor on its source. -/
def emailOfVisit (fetch : List Char → Option PageModel) (url : List Char) :
    Option (List Char) :=
  (fetch url).bind fun page => extraerPrimerEmail page.source

/-- Specification-side definition: the URLs visited when stopping at the
first one that yields an email. -/
def visitedUpToFirstEmail (fetch : List Char → Option PageModel) :
    List (List Char) → List (List Char)
  | [] => []
  | url :: rest =>
    url :: (if (emailOfVisit fetch url).isSome then []
            else visitedUpToFirstEmail fetch rest)

/-! ### `WebsiteContactFinder.py` — stage orchestration (lines 177-273) -/

/-- JSON-ish values occurring in the business records this stage reads and
writes: strings, `null`, and lists of strings (the Facebook-link field). -/
inductive JVal where
  | s : String → JVal
  | jnull : JVal
  | links : List String → JVal
deriving DecidableEq, Repr

/-- A JSON object modeled as an insertion-ordered association list, as Python
dicts are. -/
def dictGet (d : List (String × JVal)) (k : String) : Option JVal :=
  (d.find? fun p => p.1 == k).map Prod.snd

/-- Python `d[k] = v`: replace in place when the key exists, append
otherwise. -/
def dictSet (d : List (String × JVal)) (k : String) (v : JVal) :
    List (String × JVal) :=
  if d.any (fun p => p.1 == k) then
    d.map fun p => if p.1 == k then (k, v) else p
  else d ++ [(k, v)]

/-- Lowercase a string (ASCII case mapping, as the data here is ASCII). -/
def strLower (s : String) : String := String.mk (s.data.map Char.toLower)

/-- `is_valid_website` (`WebsiteContactFinder.py` lines 177-189): the value
must be a non-empty string, its lowercased-and-stripped form must not be one
of the upstream sentinel strings, and it must start with `http://` or
`https://`. -/
def is_valid_website (v : Option JVal) : Bool :=
  match v with
  | some (JVal.s url) =>
    if url = "" then false
    else
      let ul := String.mk (pyStrip (strLower url).data)
      if ul = "no encontrado" ∨ ul = "no encontrado (href vacío)" then false
      else begins "http://".data ul.data || begins "https://".data ul.data
  | _ => false

/-- The per-business contact resolution of `procesar_negocios` (lines
209-231): fast path first ("Requests (Email)"), then — when the driver is
available — the deep path ("Selenium (Email)" / "Selenium (FB Links)"),
otherwise "Ninguno".  `fast` models `buscar_primer_email_con_requests` on the
website (already composed with its page fetch); `deepFetch` and `enumOf`
model the deep path's navigation and the candidate-set enumeration of each
base URL. -/
def resolve_contact (fast : String → Option PageModel)
    (deepFetch : List Char → Option PageModel)
    (enumOf : String → List (List Char)) (driverOk : Bool)
    (website : Option JVal) : Option (List Char) × List (List Char) × String :=
  match website with
  | some (JVal.s url) =>
    if is_valid_website (some (JVal.s url)) then
      match (fast url).bind (fun pg => buscar_primer_email_requests pg.anchors pg.source) with
      | some e => (some e, [], "Requests (Email)")
      | none =>
        if driverOk then
          let r := buscar_datos_contacto_selenium deepFetch (enumOf url)
          match r.1 with
          | some e => (some e, [], "Selenium (Email)")
          | none =>
            if r.2 ≠ [] then (none, r.2, "Selenium (FB Links)")
            else (none, [], "Ninguno")
        else (none, [], "Ninguno")
    else (none, [], "Ninguno")
  | _ => (none, [], "Ninguno")

/-- The record-building step of `procesar_negocios` (lines 233-238): copy the
input record and assign the three result fields. -/
def enrich (fast : String → Option PageModel)
    (deepFetch : List Char → Option PageModel)
    (enumOf : String → List (List Char)) (driverOk : Bool)
    (b : List (String × JVal)) : List (String × JVal) :=
  dictSet
    (dictSet
      (dictSet b "email_encontrado"
        (match (resolve_contact fast deepFetch enumOf driverOk
            (dictGet b "website")).1 with
         | some e => JVal.s (String.mk e)
         | none => JVal.jnull))
      "facebook_links_encontrados"
      (JVal.links ((resolve_contact fast deepFetch enumOf driverOk
          (dictGet b "website")).2.1.map String.mk)))
    "metodo_extraccion"
    (JVal.s (resolve_contact fast deepFetch enumOf driverOk
        (dictGet b "website")).2.2)

/-- A failed input load: `FileNotFoundError` or `json.JSONDecodeError`, with
the offending path and the exception text. -/
structure LoadErr where
  path : String
  cause : String
deriving DecidableEq, Repr

/-- `procesar_negocios` (lines 191-243): on a load error (missing or
malformed JSON) the error is caught, reported, and the empty list returned;
otherwise every business is enriched, in order. -/
def procesar_negocios
    (input : Except LoadErr (List (List (String × JVal))))
    (fast : String → Option PageModel)
    (deepFetch : List Char → Option PageModel)
    (enumOf : String → List (List Char)) (driverOk : Bool) :
    List (List (String × JVal)) :=
  match input with
  | .error _ => []
  | .ok businesses => businesses.map (enrich fast deepFetch enumOf driverOk)

/-- Observable outcome of one run of `main` (lines 245-273): the process
exit status, the reported input error (the "Error Crítico" print of
`procesar_negocios`, which names the path and the exception), and the
records written to the output file, if any. -/
structure MainOutcome where
  exit_code : Nat
  reported_input_error : Option LoadErr
  output_written : Option (List (List (String × JVal)))
deriving DecidableEq, Repr

/-- `main` (lines 245-273) followed by interpreter exit: `procesar_negocios`
returns `[]` on a load error (already reported), `main` writes the output
file only when the result list is non-empty, and since no path calls
`sys.exit` and `FileNotFoundError`/`JSONDecodeError` are caught, the process
always exits `0`.  (A failure of the output write itself is also caught and
printed, again exiting `0`; a successful write is assumed here, as the write
is a collaborator.) -/
def main_model (input : Except LoadErr (List (List (String × JVal))))
    (fast : String → Option PageModel)
    (deepFetch : List Char → Option PageModel)
    (enumOf : String → List (List Char)) (driverOk : Bool) : MainOutcome :=
  let results := procesar_negocios input fast deepFetch enumOf driverOk
  { exit_code := 0
    reported_input_error :=
      match input with
      | .error e => some e
      | .ok _ => none
    output_written := if results ≠ [] then some results else none }

/-- Concrete page oracle used to exhibit the order dependence of the deep
path: the home page and the contact page of `http://ex.com` each contain a
different email, every other candidate page contains none. -/
def fetchTwoEmails (u : List Char) : Option PageModel :=
  if u = "http://ex.com".data then some ⟨"write home@ex.com now".data, []⟩
  else if u = "http://ex.com/contact".data then
    some ⟨"write contact@ex.com now".data, []⟩
  else some ⟨"no address".data, []⟩

/-! ### Helper lemmas: prefix tests, takeWhile/dropWhile, trailing trims -/

theorem begins_iff_append {p l : List Char} : begins p l = true ↔ ∃ t, l = p ++ t := by
  induction p generalizing l with
  | nil => simp [begins]
  | cons a ps ih =>
    cases l with
    | nil => simp [begins]
    | cons c cs =>
      simp only [begins, Bool.and_eq_true, beq_iff_eq, ih, List.cons_append,
        List.cons.injEq]
      constructor
      · rintro ⟨rfl, t, rfl⟩; exact ⟨t, rfl, rfl⟩
      · rintro ⟨t, rfl, rfl⟩; exact ⟨rfl, t, rfl⟩

theorem begins_append_self (p t : List Char) : begins p (p ++ t) = true :=
  begins_iff_append.mpr ⟨t, rfl⟩

theorem begins_trans {a b c : List Char} (h1 : begins a b = true)
    (h2 : begins b c = true) : begins a c = true := by
  obtain ⟨t, rfl⟩ := begins_iff_append.mp h1
  obtain ⟨u, rfl⟩ := begins_iff_append.mp h2
  exact begins_iff_append.mpr ⟨t ++ u, by simp⟩

theorem begins_of_append_left {d e l : List Char}
    (h : begins (d ++ e) l = true) : begins d l = true := by
  obtain ⟨t, rfl⟩ := begins_iff_append.mp h
  exact begins_iff_append.mpr ⟨e ++ t, by simp⟩

theorem takeWhile_begins (p : Char → Bool) (l : List Char) :
    begins (l.takeWhile p) l = true := by
  induction l with
  | nil => simp [begins]
  | cons c cs ih =>
    by_cases h : p c
    · simpa [List.takeWhile_cons, h, begins] using ih
    · simp [List.takeWhile_cons, h, begins]

theorem dropTrailingIf_begins (f : Char → Bool) (l : List Char) :
    begins (dropTrailingIf f l) l = true := by
  induction l with
  | nil => simp [dropTrailingIf, begins]
  | cons c cs ih =>
    simp only [dropTrailingIf]
    split
    · simp [begins]
    · simpa [begins] using ih

theorem dropTrailingIf_eq_nil_iff {f : Char → Bool} {l : List Char} :
    dropTrailingIf f l = [] ↔ l.all f = true := by
  induction l with
  | nil => simp [dropTrailingIf]
  | cons c cs ih =>
    simp only [dropTrailingIf, List.all_cons, Bool.and_eq_true]
    split
    · rename_i h
      simp only [Bool.and_eq_true, List.isEmpty_iff] at h
      exact iff_of_true rfl ⟨h.2, ih.mp h.1⟩
    · rename_i h
      simp only [Bool.and_eq_true, List.isEmpty_iff] at h
      constructor
      · intro hc; cases hc
      · rintro ⟨hc, hall⟩
        exact absurd ⟨ih.mpr hall, hc⟩ h

theorem takeWhile_append_stop {p : Char → Bool} {l : List Char} (c : Char)
    (t : List Char) (hall : l.all p = true) (hc : p c = false) :
    (l ++ c :: t).takeWhile p = l := by
  induction l with
  | nil => simp [List.takeWhile_cons, hc]
  | cons a as ih =>
    simp only [List.all_cons, Bool.and_eq_true] at hall
    simp [List.takeWhile_cons, hall.1, ih hall.2]

theorem dropWhile_append_stop {p : Char → Bool} {l : List Char} (c : Char)
    (t : List Char) (hall : l.all p = true) (hc : p c = false) :
    (l ++ c :: t).dropWhile p = c :: t := by
  induction l with
  | nil => simp [List.dropWhile_cons, hc]
  | cons a as ih =>
    simp only [List.all_cons, Bool.and_eq_true] at hall
    simp [List.dropWhile_cons, hall.1, ih hall.2]

theorem takeWhile_append_all {p : Char → Bool} {l : List Char} (x : List Char)
    (hall : l.all p = true) :
    (l ++ x).takeWhile p = l ++ x.takeWhile p := by
  induction l with
  | nil => simp
  | cons a as ih =>
    simp only [List.all_cons, Bool.and_eq_true] at hall
    simp [List.takeWhile_cons, hall.1, ih hall.2]

theorem drop_append_cons (l : List Char) (c : Char) (t : List Char) :
    (l ++ c :: t).drop (l.length + 1) = t := by
  induction l with
  | nil => simp
  | cons a as ih => simp [ih]

theorem addSet_mem {α : Type} [DecidableEq α] {l : List α} {x y : α}
    (h : y ∈ addSet l x) : y ∈ l ∨ y = x := by
  unfold addSet at h
  split at h
  · exact Or.inl h
  · rcases List.mem_append.mp h with h | h
    · exact Or.inl h
    · simp only [List.mem_singleton] at h; exact Or.inr h

theorem addSet_nodup {α : Type} [DecidableEq α] {l : List α} (x : α)
    (h : l.Nodup) : (addSet l x).Nodup := by
  unfold addSet
  split
  · exact h
  · rename_i hx
    simpa [List.nodup_append, h] using hx

/-! ### Helper lemmas: ASCII lowercasing -/

theorem toNat_ofNat_valid {n : Nat} (h : n < 55296) : (Char.ofNat n).toNat = n := by
  have hv : n.isValidChar := Or.inl h
  rw [Char.ofNat, dif_pos hv]
  rfl

theorem toNat_toLower (c : Char) :
    (Char.toLower c).toNat =
      if 65 ≤ c.toNat ∧ c.toNat ≤ 90 then c.toNat + 32 else c.toNat := by
  unfold Char.toLower
  split
  · rename_i h
    rw [if_pos h, toNat_ofNat_valid (by omega)]
  · rename_i h
    rw [if_neg h]

theorem toLower_eq_self_of_le {c : Char} (h : c.toNat < 65 ∨ 90 < c.toNat) :
    Char.toLower c = c := by
  unfold Char.toLower
  rw [if_neg (by omega)]

theorem isAsciiAlpha_toLower {c : Char} (h : isAsciiAlpha c = true) :
    isAsciiAlpha (Char.toLower c) = true := by
  have ht := toNat_toLower c
  simp only [isAsciiAlpha, Bool.or_eq_true, Bool.and_eq_true, decide_eq_true_eq] at h ⊢
  by_cases hc : 65 ≤ c.toNat ∧ c.toNat ≤ 90
  · rw [if_pos hc] at ht
    rw [ht]; omega
  · rw [if_neg hc] at ht
    rw [ht]; omega

theorem isAsciiDigit_toLower {c : Char} (h : isAsciiDigit c = true) :
    Char.toLower c = c := by
  simp only [isAsciiDigit, Bool.and_eq_true, decide_eq_true_eq] at h
  exact toLower_eq_self_of_le (by omega)

theorem isLocalChar_toLower {c : Char} (h : isLocalChar c = true) :
    isLocalChar (Char.toLower c) = true := by
  simp only [isLocalChar, Bool.or_eq_true, decide_eq_true_eq] at h
  rcases h with ((((((h | h) | h) | h) | h) | h) | h)
  · simp [isLocalChar, isAsciiAlpha_toLower h]
  · simp [isLocalChar, isAsciiDigit_toLower h, isAsciiDigit] at h ⊢
    omega
  all_goals subst h; decide

theorem isDomainChar_toLower {c : Char} (h : isDomainChar c = true) :
    isDomainChar (Char.toLower c) = true := by
  simp only [isDomainChar, Bool.or_eq_true, decide_eq_true_eq] at h
  rcases h with ((h | h) | h) | h
  · simp [isDomainChar, isAsciiAlpha_toLower h]
  · simp [isDomainChar, isAsciiDigit_toLower h, isAsciiDigit] at h ⊢
    omega
  all_goals subst h; decide

/-! ### Helper lemmas: mod/div stepping for the batch counter -/

theorem dvd_succ_of_mod_pred {a L : Nat} (hL : 0 < L) (h : a % L = L - 1) :
    L ∣ a + 1 := by
  have h2 := Nat.mod_add_div a L
  refine ⟨a / L + 1, ?_⟩
  rw [Nat.mul_succ]
  omega

theorem mod_succ_flush {a L : Nat} (hL : 0 < L) (h : a % L = L - 1) :
    (a + 1) % L = 0 := by
  obtain ⟨k, hk⟩ := dvd_succ_of_mod_pred hL h
  rw [hk, Nat.mul_mod_right]

theorem div_succ_flush {a L : Nat} (hL : 0 < L) (h : a % L = L - 1) :
    (a + 1) / L = a / L + 1 := by
  rw [Nat.succ_div, if_pos (dvd_succ_of_mod_pred hL h)]

theorem mod_succ_noflush {a L : Nat} (hL : 0 < L) (h : a % L ≠ L - 1) :
    (a + 1) % L = a % L + 1 := by
  have hlt : a % L < L := Nat.mod_lt _ hL
  have h2 : a % L + 1 < L := by omega
  have h3 : (a + 1) % L = (a % L + 1 % L) % L := Nat.add_mod a 1 L
  have hL2 : 1 < L := by omega
  rw [Nat.mod_eq_of_lt hL2] at h3
  rw [h3, Nat.mod_eq_of_lt h2]

theorem div_succ_noflush {a L : Nat} (hL : 0 < L) (h : a % L ≠ L - 1) :
    (a + 1) / L = a / L := by
  rw [Nat.succ_div, if_neg, Nat.add_zero]
  intro hdvd
  obtain ⟨k, hk⟩ := hdvd
  have hk1 : 1 ≤ k := by
    rcases Nat.eq_zero_or_pos k with rfl | hp
    · omega
    · exact hp
  have ha : a = L * (k - 1) + (L - 1) := by
    cases k with
    | zero => omega
    | succ k' =>
      have : a + 1 = L * k' + L := by rw [hk]; ring
      simp only [Nat.succ_sub_one]
      omega
  rw [ha, Nat.mul_add_mod] at h
  exact h (Nat.mod_eq_of_lt (by omega))

/-! ### Helper lemmas: `DataPipeline` stepping -/

theorem runAdds_concat (L : Nat) (rs : List SearchData) (r : SearchData) :
    runAdds L (rs ++ [r]) = add_data (runAdds L rs) r := by
  simp [runAdds, List.foldl_append]

theorem dedupFirst_concat (rs : List SearchData) (r : SearchData) :
    dedupFirst (rs ++ [r]) =
      if r.name ∈ (dedupFirst rs).map SearchData.name then dedupFirst rs
      else dedupFirst rs ++ [r] := by
  simp [dedupFirst, List.foldl_append]

theorem add_data_dup {st : PipelineState} {r : SearchData}
    (hm : r.name ∈ st.names_seen) : add_data st r = st := by
  simp [add_data, is_duplicate, hm]

theorem save_to_csv_nonempty {st : PipelineState} (h : st.storage_queue ≠ []) :
    save_to_csv st =
      { st with
        storage_queue := []
        csv_file_open := false
        stored := st.stored ++ st.storage_queue
        flush_count := st.flush_count + 1 } := by
  simp [save_to_csv, h]

theorem add_data_new {st : PipelineState} {r : SearchData}
    (hm : r.name ∉ st.names_seen) (hop : st.csv_file_open = false) :
    add_data st r =
      if st.storage_queue_limit ≤ st.storage_queue.length + 1 then
        { st with
          names_seen := st.names_seen ++ [r.name]
          storage_queue := []
          csv_file_open := false
          stored := st.stored ++ st.storage_queue ++ [r]
          flush_count := st.flush_count + 1 }
      else
        { st with
          names_seen := st.names_seen ++ [r.name]
          storage_queue := st.storage_queue ++ [r] } := by
  simp only [add_data, is_duplicate, if_neg hm]
  split
  · rename_i hcond
    simp at hcond
  · split
    · rename_i hcond
      simp only [List.length_append, List.length_singleton, hop, and_true] at hcond
      rw [if_pos hcond]
      rw [save_to_csv_nonempty (by simp)]
      simp [List.append_assoc]
    · rename_i hcond
      simp only [List.length_append, List.length_singleton, hop, and_true] at hcond
      rw [if_neg hcond]

theorem runAdds_inv (L : Nat) (rs : List SearchData) :
    (runAdds L rs).names_seen = (dedupFirst rs).map SearchData.name ∧
    (runAdds L rs).stored ++ (runAdds L rs).storage_queue = dedupFirst rs ∧
    (runAdds L rs).csv_file_open = false ∧
    (runAdds L rs).storage_queue_limit = L := by
  induction rs using List.reverseRecOn with
  | nil => simp [runAdds, initPipeline, dedupFirst]
  | append_singleton rs r ih =>
    obtain ⟨h1, h2, h3, h4⟩ := ih
    rw [runAdds_concat, dedupFirst_concat]
    by_cases hmem : r.name ∈ (dedupFirst rs).map SearchData.name
    · rw [if_pos hmem, add_data_dup (h1 ▸ hmem)]
      exact ⟨h1, h2, h3, h4⟩
    · rw [if_neg hmem, add_data_new (h1 ▸ hmem) h3]
      split
      · refine ⟨?_, ?_, rfl, h4⟩
        · show (runAdds L rs).names_seen ++ [r.name] = _
          rw [h1, List.map_append]
          rfl
        · show (runAdds L rs).stored ++ (runAdds L rs).storage_queue ++ [r] ++ [] = _
          rw [List.append_nil, h2]
      · refine ⟨?_, ?_, h3, h4⟩
        · show (runAdds L rs).names_seen ++ [r.name] = _
          rw [h1, List.map_append]
          rfl
        · show (runAdds L rs).stored ++ ((runAdds L rs).storage_queue ++ [r]) = _
          rw [← List.append_assoc, h2]

theorem runAdds_len_inv (L : Nat) (hL : 0 < L) (rs : List SearchData) :
    (runAdds L rs).storage_queue.length = (dedupFirst rs).length % L ∧
    (runAdds L rs).flush_count = (dedupFirst rs).length / L := by
  induction rs using List.reverseRecOn with
  | nil => simp [runAdds, initPipeline, dedupFirst]
  | append_singleton rs r ih =>
    obtain ⟨hq, hf⟩ := ih
    obtain ⟨h1, h2, h3, h4⟩ := runAdds_inv L rs
    rw [runAdds_concat, dedupFirst_concat]
    by_cases hmem : r.name ∈ (dedupFirst rs).map SearchData.name
    · rw [if_pos hmem, add_data_dup (h1 ▸ hmem)]
      exact ⟨hq, hf⟩
    · rw [if_neg hmem, add_data_new (h1 ▸ hmem) h3, List.length_append,
        List.length_singleton]
      by_cases hfl : (dedupFirst rs).length % L = L - 1
      · have hlen : (runAdds L rs).storage_queue.length + 1 = L := by
          have := Nat.mod_lt (dedupFirst rs).length hL
          omega
        rw [if_pos (by rw [h4]; omega)]
        constructor
        · show ([] : List SearchData).length = _
          rw [mod_succ_flush hL hfl]
          rfl
        · show (runAdds L rs).flush_count + 1 = _
          rw [div_succ_flush hL hfl, hf]
      · have hmlt : (dedupFirst rs).length % L < L := Nat.mod_lt _ hL
        rw [if_neg (by rw [h4]; omega)]
        constructor
        · show ((runAdds L rs).storage_queue ++ [r]).length = _
          rw [List.length_append, List.length_singleton, mod_succ_noflush hL hfl, hq]
        · show (runAdds L rs).flush_count = _
          rw [div_succ_noflush hL hfl, hf]

theorem close_runAdds (L : Nat) (rs : List SearchData) :
    (close_pipeline (runAdds L rs)).stored = dedupFirst rs ∧
    (close_pipeline (runAdds L rs)).storage_queue = [] := by
  obtain ⟨h1, h2, h3, h4⟩ := runAdds_inv L rs
  unfold close_pipeline
  split
  · rename_i hpos
    rw [save_to_csv_nonempty (by intro hnil; rw [hnil] at hpos; simp at hpos)]
    exact ⟨h2, rfl⟩
  · rename_i hpos
    have hnil : (runAdds L rs).storage_queue = [] := by
      cases hq : (runAdds L rs).storage_queue with
      | nil => rfl
      | cons a t => rw [hq] at hpos; simp at hpos
    rw [hnil, List.append_nil] at h2
    exact ⟨h2, hnil⟩

theorem close_flush_count (L : Nat) (hL : 0 < L) (rs : List SearchData) :
    (close_pipeline (runAdds L rs)).flush_count =
      (dedupFirst rs).length / L +
        (if (dedupFirst rs).length % L = 0 then 0 else 1) := by
  obtain ⟨hq, hf⟩ := runAdds_len_inv L hL rs
  unfold close_pipeline
  split
  · rename_i hpos
    rw [save_to_csv_nonempty (by intro hnil; rw [hnil] at hpos; simp at hpos)]
    have hmod : (dedupFirst rs).length % L ≠ 0 := by omega
    rw [if_neg hmod]
    show (runAdds L rs).flush_count + 1 = _
    rw [hf]
  · rename_i hpos
    have hmod : (dedupFirst rs).length % L = 0 := by omega
    rw [if_pos hmod, hf, Nat.add_zero]

theorem dedupFirst_names_nodup (rs : List SearchData) :
    ((dedupFirst rs).map SearchData.name).Nodup := by
  induction rs using List.reverseRecOn with
  | nil => simp [dedupFirst]
  | append_singleton rs r ih =>
    rw [dedupFirst_concat]
    split
    · exact ih
    · rename_i hmem
      rw [List.map_append]
      simp [List.nodup_append, ih, hmem]

theorem dedupFirst_of_nodup {rs : List SearchData}
    (h : (rs.map SearchData.name).Nodup) : dedupFirst rs = rs := by
  induction rs using List.reverseRecOn with
  | nil => simp [dedupFirst]
  | append_singleton rs r ih =>
    rw [List.map_append] at h
    have h1 : (rs.map SearchData.name).Nodup := (List.nodup_append.mp h).1
    have h2 : r.name ∉ rs.map SearchData.name := by
      intro hmem
      exact (List.nodup_append.mp h).2.2 hmem (by simp)
    rw [dedupFirst_concat, ih h1, if_neg h2]

theorem dropWhile_all_iff {p : Char → Bool} {l : List Char} :
    (l.dropWhile p).all p = true ↔ l.all p = true := by
  induction l with
  | nil => simp
  | cons c cs ih =>
    by_cases h : p c
    · simp [List.dropWhile_cons, h, ih]
    · simp [List.dropWhile_cons, h]

theorem string_mk_eq_empty_iff (l : List Char) : String.mk l = "" ↔ l = [] := by
  constructor
  · intro h
    have := congrArg String.data h
    simpa using this
  · rintro rfl
    rfl

/-! ### Claim theorems: Dedup & Batch Writer -/

/-- Claim C4: submitting `N` records with pairwise-distinct dedup keys to a
writer with batch capacity `K` (`1 ≤ K < N`) produces exactly `⌊N/K⌋`
automatic flushes before `close_pipeline`, leaves `N % K` records queued,
and `close_pipeline` flushes exactly that remainder so that the backing store
holds all `N` records. -/
theorem claim_C4_batch_flush_schedule (rs : List SearchData) (K : Nat)
    (hK : 1 ≤ K) (hKN : K < rs.length)
    (hnd : (rs.map SearchData.name).Nodup) :
    (runAdds K rs).flush_count = rs.length / K ∧
    (runAdds K rs).storage_queue.length = rs.length % K ∧
    (close_pipeline (runAdds K rs)).storage_queue = [] ∧
    (close_pipeline (runAdds K rs)).stored = rs ∧
    (close_pipeline (runAdds K rs)).stored.length = rs.length ∧
    (close_pipeline (runAdds K rs)).flush_count =
      rs.length / K + (if rs.length % K = 0 then 0 else 1) := by
  have hds : dedupFirst rs = rs := dedupFirst_of_nodup hnd
  obtain ⟨hq, hf⟩ := runAdds_len_inv K hK rs
  obtain ⟨hcs, hcq⟩ := close_runAdds K rs
  have hcf := close_flush_count K hK rs
  rw [hds] at hq hf hcs hcf
  exact ⟨hf, hq, hcq, hcs, by rw [hcs], hcf⟩

theorem claim_C4_witness :
    (1 ≤ 2 ∧
      2 < ([SearchData.mk "a" "1", SearchData.mk "b" "2", SearchData.mk "c" "3"] :
            List SearchData).length ∧
      (([SearchData.mk "a" "1", SearchData.mk "b" "2",
          SearchData.mk "c" "3"].map SearchData.name).Nodup)) ∧
    ((runAdds 2 [SearchData.mk "a" "1", SearchData.mk "b" "2",
        SearchData.mk "c" "3"]).flush_count =
        [SearchData.mk "a" "1", SearchData.mk "b" "2",
          SearchData.mk "c" "3"].length / 2 ∧
      (runAdds 2 [SearchData.mk "a" "1", SearchData.mk "b" "2",
        SearchData.mk "c" "3"]).storage_queue.length =
        [SearchData.mk "a" "1", SearchData.mk "b" "2",
          SearchData.mk "c" "3"].length % 2 ∧
      (close_pipeline (runAdds 2 [SearchData.mk "a" "1", SearchData.mk "b" "2",
        SearchData.mk "c" "3"])).storage_queue = [] ∧
      (close_pipeline (runAdds 2 [SearchData.mk "a" "1", SearchData.mk "b" "2",
        SearchData.mk "c" "3"])).stored =
        [SearchData.mk "a" "1", SearchData.mk "b" "2", SearchData.mk "c" "3"] ∧
      (close_pipeline (runAdds 2 [SearchData.mk "a" "1", SearchData.mk "b" "2",
        SearchData.mk "c" "3"])).stored.length =
        [SearchData.mk "a" "1", SearchData.mk "b" "2",
          SearchData.mk "c" "3"].length ∧
      (close_pipeline (runAdds 2 [SearchData.mk "a" "1", SearchData.mk "b" "2",
        SearchData.mk "c" "3"])).flush_count =
        [SearchData.mk "a" "1", SearchData.mk "b" "2",
            SearchData.mk "c" "3"].length / 2 +
          (if [SearchData.mk "a" "1", SearchData.mk "b" "2",
              SearchData.mk "c" "3"].length % 2 = 0 then 0 else 1)) :=
  ⟨⟨by decide, by decide, by decide⟩,
    claim_C4_batch_flush_schedule _ 2 (by decide) (by decide) (by decide)⟩

/-- Claim C5: for every submission sequence and configured capacity, the
records persisted over a whole run (submissions then `close_pipeline`) are
exactly the first-seen-wins filtering of the submissions by the dedup key,
so no two persisted records share a name and later duplicates are dropped. -/
theorem claim_C5_dedup_first_seen (rs : List SearchData) (L : Nat) :
    (close_pipeline (runAdds L rs)).stored = dedupFirst rs ∧
    ((close_pipeline (runAdds L rs)).stored.map SearchData.name).Nodup := by
  obtain ⟨hcs, _⟩ := close_runAdds L rs
  exact ⟨hcs, by rw [hcs]; exact dedupFirst_names_nodup rs⟩

/-- Claim C1 (code defect evaluated at the failing input): a pipeline holding
one queued record whose flush write fails before any row is written ends with
an empty queue, an empty backing store, and `csv_file_open` stuck `true` —
the record is in neither the writer's state nor the store, so it is lost
rather than retained for a retried flush. -/
theorem claim_C1_flush_failure_loses_records :
    (save_to_csv_write_failure
        { names_seen := ["Acme"], storage_queue := [SearchData.mk "Acme" "u"],
          storage_queue_limit := 50, csv_filename := "out.csv",
          csv_file_open := false, stored := [], flush_count := 0 } 0).storage_queue = [] ∧
    (save_to_csv_write_failure
        { names_seen := ["Acme"], storage_queue := [SearchData.mk "Acme" "u"],
          storage_queue_limit := 50, csv_filename := "out.csv",
          csv_file_open := false, stored := [], flush_count := 0 } 0).stored = [] ∧
    (save_to_csv_write_failure
        { names_seen := ["Acme"], storage_queue := [SearchData.mk "Acme" "u"],
          storage_queue_limit := 50, csv_filename := "out.csv",
          csv_file_open := false, stored := [], flush_count := 0 } 0).csv_file_open = true :=
  ⟨rfl, rfl, rfl⟩

/-! ### Claim theorems: `SearchData` field normalization -/

/-- Claim C10 counterexample: a non-empty, all-whitespace name is not
replaced by a placeholder; it is stripped to the empty string, so the dedup
key can be empty. -/
theorem claim_C10_cex :
    ("   " : String) ≠ "" ∧ (mkSearchData "   " "u").name = "" := by
  exact ⟨by decide, by decide⟩

/-- Claim C10 (amended): a field given as exactly the empty string becomes
`"No <field-name>"`, any other field is stripped of surrounding whitespace,
and the resulting name is empty exactly when the input name was non-empty
but all-whitespace. -/
theorem claim_C10_amended (name url : String) :
    (mkSearchData name url).name =
      (if name = "" then "No name" else String.mk (pyStrip name.data)) ∧
    (mkSearchData name url).url =
      (if url = "" then "No url" else String.mk (pyStrip url.data)) ∧
    ((mkSearchData name url).name = "" ↔
      name ≠ "" ∧ name.data.all Char.isWhitespace = true) := by
  refine ⟨?_, ?_, ?_⟩
  · show check_string_field "name" name = _
    unfold check_string_field
    rfl
  · show check_string_field "url" url = _
    unfold check_string_field
    rfl
  · show check_string_field "name" name = "" ↔ _
    unfold check_string_field
    by_cases h : name = ""
    · rw [if_pos h]
      simp [h]
    · rw [if_neg h, string_mk_eq_empty_iff]
      unfold pyStrip
      rw [dropTrailingIf_eq_nil_iff, dropWhile_all_iff]
      exact ⟨fun ha => ⟨h, ha⟩, fun ha => ha.2⟩

/-! ### Helper lemmas: email matcher -/

theorem takeWhile_all_self (p : Char → Bool) (l : List Char) :
    (l.takeWhile p).all p = true := by
  induction l with
  | nil => simp
  | cons c cs ih =>
    by_cases h : p c <;> simp [List.takeWhile_cons, h, ih]

theorem all_take_of_all {p : Char → Bool} {l : List Char} (h : l.all p = true)
    (k : Nat) : (l.take k).all p = true := by
  rw [List.all_eq_true] at h ⊢
  exact fun x hx => h x (List.mem_of_mem_take hx)

theorem all_imp_of_all {p q : Char → Bool} (hpq : ∀ c, p c = true → q c = true)
    {l : List Char} (h : l.all p = true) : l.all q = true := by
  rw [List.all_eq_true] at h ⊢
  exact fun x hx => hpq x (h x hx)

theorem all_map_toLower {p : Char → Bool} {l : List Char} (h : l.all p = true)
    (hf : ∀ c, p c = true → p (Char.toLower c) = true) :
    (l.map Char.toLower).all p = true := by
  rw [List.all_eq_true] at h ⊢
  intro x hx
  obtain ⟨c, hc, rfl⟩ := List.mem_map.mp hx
  exact hf c (h c hc)

theorem isDomainChar_of_alpha {c : Char} (h : isAsciiAlpha c = true) :
    isDomainChar c = true := by
  simp [isDomainChar, h]

theorem drop_head_cons {l : List Char} {k : Nat} {c : Char}
    (h : (l.drop k).head? = some c) : l.drop k = c :: l.drop (k + 1) := by
  cases hd : l.drop k with
  | nil => rw [hd] at h; cases h
  | cons a t =>
    rw [hd] at h
    simp only [List.head?_cons, Option.some.injEq] at h
    subst h
    have ht : l.drop (k + 1) = t := by
      have h2 : (l.drop k).drop 1 = t := by rw [hd]; rfl
      rw [List.drop_drop] at h2
      exact h2
    rw [ht]

theorem domTry_zero (m : List Char) : domTry m 0 = none := by
  simp [domTry]

theorem domTry_eq_some {m r : List Char} {k : Nat} (h : domTry m k = some r) :
    1 ≤ k ∧ (m.drop k).head? = some '.' ∧
      2 ≤ (tldRun (m.drop (k + 1))).length ∧
      r = m.take k ++ '.' :: tldRun (m.drop (k + 1)) := by
  unfold domTry at h
  split at h
  · rename_i hc
    split at h
    · rename_i h2
      refine ⟨hc.1, hc.2, h2, ?_⟩
      injection h with h
      exact h.symm
    · cases h
  · cases h

theorem domSearch_eq_some {m r : List Char} :
    ∀ {n : Nat}, domSearch m n = some r → ∃ k, domTry m k = some r := by
  intro n
  induction n with
  | zero => intro h; simp [domSearch] at h
  | succ k ih =>
    intro h
    rw [domSearch] at h
    cases htry : domTry m (k + 1) with
    | some r' =>
      rw [htry] at h
      injection h with h
      exact ⟨k + 1, by rw [htry, h]⟩
    | none =>
      rw [htry] at h
      exact ih h

theorem domSearch_isSome {m : List Char} {k : Nat}
    (hk : (domTry m k).isSome) : ∀ {n : Nat}, k ≤ n → (domSearch m n).isSome := by
  intro n
  induction n with
  | zero =>
    intro hle
    have : k = 0 := by omega
    rw [this, domTry_zero] at hk
    cases hk
  | succ n ih =>
    intro hle
    rw [domSearch]
    cases htry : domTry m (n + 1) with
    | some r => rfl
    | none =>
      have hkn : k ≤ n := by
        rcases Nat.lt_or_ge k (n + 1) with h | h
        · omega
        · have : k = n + 1 := by omega
          rw [this, htry] at hk
          cases hk
      exact ih hkn

theorem tailFull_intro {d t : List Char} (hd1 : 1 ≤ d.length)
    (hd_all : d.all isDomainChar = true) (ht_all : t.all isAsciiAlpha = true)
    (ht2 : 2 ≤ t.length) : tailFull (d ++ '.' :: t) = true := by
  unfold tailFull
  rw [List.any_eq_true]
  refine ⟨d.length, List.mem_range.mpr ?_, ?_⟩
  · rw [List.length_append, List.length_cons]; omega
  · simp only [Bool.and_eq_true, decide_eq_true_eq, beq_iff_eq]
    refine ⟨⟨⟨⟨hd1, ?_⟩, ?_⟩, ?_⟩, ?_⟩
    · rw [List.drop_left]; rfl
    · rw [List.take_left]; exact hd_all
    · rw [drop_append_cons]; exact ht_all
    · rw [List.length_append, List.length_cons]; omega

theorem tailFull_elim {r : List Char} (h : tailFull r = true) :
    ∃ k, 1 ≤ k ∧ (r.drop k).head? = some '.' ∧
      (r.take k).all isDomainChar = true ∧
      (r.drop (k + 1)).all isAsciiAlpha = true ∧ 2 ≤ r.length - (k + 1) := by
  unfold tailFull at h
  rw [List.any_eq_true] at h
  obtain ⟨k, _, hprops⟩ := h
  simp only [Bool.and_eq_true, decide_eq_true_eq, beq_iff_eq] at hprops
  exact ⟨k, hprops.1.1.1.1, hprops.1.1.1.2, hprops.1.1.2, hprops.1.2, hprops.2⟩

theorem fullmatchEmail_intro {lp d t : List Char}
    (hlp : lp ≠ []) (hlp_all : lp.all isLocalChar = true)
    (hd1 : 1 ≤ d.length) (hd_all : d.all isDomainChar = true)
    (ht_all : t.all isAsciiAlpha = true) (ht2 : 2 ≤ t.length) :
    fullmatchEmail (lp ++ '@' :: (d ++ '.' :: t)) = true := by
  unfold fullmatchEmail
  rw [takeWhile_append_stop '@' _ hlp_all (by decide), List.drop_left,
    Bool.and_eq_true]
  constructor
  · simpa using hlp
  · exact tailFull_intro hd1 hd_all ht_all ht2

theorem fullmatchEmail_elim {s : List Char} (h : fullmatchEmail s = true) :
    ∃ lp d t, s = lp ++ '@' :: (d ++ '.' :: t) ∧ lp ≠ [] ∧
      lp.all isLocalChar = true ∧ 1 ≤ d.length ∧ d.all isDomainChar = true ∧
      t.all isAsciiAlpha = true ∧ 2 ≤ t.length := by
  unfold fullmatchEmail at h
  rw [Bool.and_eq_true] at h
  obtain ⟨h1, h2⟩ := h
  split at h2
  · rename_i rest heq
    obtain ⟨k, hk1, hdot, hdall, htall, hlen⟩ := tailFull_elim h2
    have hklt : k < rest.length := by
      by_contra hge
      rw [List.drop_eq_nil_of_le (by omega)] at hdot
      cases hdot
    have hrest : rest = rest.take k ++ '.' :: rest.drop (k + 1) := by
      conv_lhs => rw [← List.take_append_drop k rest]
      rw [drop_head_cons hdot]
    have hs2 : s = s.takeWhile isLocalChar ++ '@' :: rest := by
      obtain ⟨rest0, hs⟩ := begins_iff_append.mp (takeWhile_begins isLocalChar s)
      have hdrop := List.drop_left (s.takeWhile isLocalChar) rest0
      rw [← hs] at hdrop
      rw [heq] at hdrop
      conv_lhs => rw [hs, ← hdrop]
    refine ⟨s.takeWhile isLocalChar, rest.take k, rest.drop (k + 1), ?_, ?_,
      takeWhile_all_self _ _, ?_, hdall, htall, ?_⟩
    · conv_lhs => rw [hs2]
      rw [← hrest]
    · simpa using h1
    · rw [List.length_take]; omega
    · rw [List.length_drop]; omega
  · cases h2

theorem fullmatch_toLower_of_matchAt {cs m : List Char}
    (h : matchEmailAt cs = some m) :
    fullmatchEmail (m.map Char.toLower) = true := by
  unfold matchEmailAt at h
  split at h
  · cases h
  · rename_i hlp
    split at h
    · rename_i rest heq
      cases hdm : domMatch (rest.takeWhile isDomainChar) with
      | none => rw [hdm] at h; cases h
      | some d =>
        rw [hdm] at h
        injection h with h
        subst h
        obtain ⟨k, htry⟩ := domSearch_eq_some hdm
        obtain ⟨hk1, hdot, htld, hd⟩ := domTry_eq_some htry
        subst hd
        have hklt : k < (rest.takeWhile isDomainChar).length := by
          by_contra hge
          rw [List.drop_eq_nil_of_le (by omega)] at hdot
          cases hdot
        rw [List.map_append, List.map_cons, List.map_append, List.map_cons,
          show Char.toLower '@' = '@' from by decide,
          show Char.toLower '.' = '.' from by decide]
        apply fullmatchEmail_intro
        · intro hnil
          exact hlp (by simpa using hnil)
        · exact all_map_toLower (takeWhile_all_self _ _)
            (fun c => isLocalChar_toLower)
        · rw [List.length_map, List.length_take]; omega
        · exact all_map_toLower
            (all_take_of_all (takeWhile_all_self _ _) k)
            (fun c => isDomainChar_toLower)
        · exact all_map_toLower (takeWhile_all_self _ _)
            (fun c => isAsciiAlpha_toLower)
        · rw [List.length_map]; exact htld
    · cases h

theorem matchEmailAt_isSome_intro {lp d t post : List Char}
    (hlp : lp ≠ []) (hlp_all : lp.all isLocalChar = true)
    (hd1 : 1 ≤ d.length) (hd_all : d.all isDomainChar = true)
    (ht_all : t.all isAsciiAlpha = true) (ht2 : 2 ≤ t.length) :
    (matchEmailAt ((lp ++ '@' :: (d ++ '.' :: t)) ++ post)).isSome := by
  have hshape : (lp ++ '@' :: (d ++ '.' :: t)) ++ post
      = lp ++ '@' :: (d ++ '.' :: (t ++ post)) := by
    simp [List.append_assoc]
  rw [hshape]
  unfold matchEmailAt
  rw [takeWhile_append_stop '@' _ hlp_all (by decide), if_neg hlp,
    List.drop_left]
  show (match domMatch ((d ++ '.' :: (t ++ post)).takeWhile isDomainChar) with
    | some dd => some (lp ++ '@' :: dd)
    | none => none).isSome = true
  have ht_dom : t.all isDomainChar = true :=
    all_imp_of_all (fun c => isDomainChar_of_alpha) ht_all
  have hmunch : (d ++ '.' :: (t ++ post)).takeWhile isDomainChar
      = d ++ '.' :: (t ++ post.takeWhile isDomainChar) := by
    rw [takeWhile_append_all _ hd_all, List.takeWhile_cons,
      if_pos (show isDomainChar '.' = true from by decide),
      takeWhile_append_all _ ht_dom]
  rw [hmunch]
  have htry : (domTry (d ++ '.' :: (t ++ post.takeWhile isDomainChar))
      d.length).isSome := by
    unfold domTry
    rw [if_pos ⟨hd1, by rw [List.drop_left]; rfl⟩]
    rw [if_pos ?hcond]
    · rfl
    case hcond =>
      rw [drop_append_cons]
      show 2 ≤ ((t ++ post.takeWhile isDomainChar).takeWhile isAsciiAlpha).length
      rw [takeWhile_append_all _ ht_all, List.length_append]
      omega
  have hdm : (domMatch (d ++ '.' :: (t ++ post.takeWhile isDomainChar))).isSome := by
    unfold domMatch
    refine domSearch_isSome htry ?_
    rw [List.length_append]
    omega
  obtain ⟨r, hr⟩ := Option.isSome_iff_exists.mp hdm
  rw [hr]
  rfl

theorem matchEmailAt_isSome_of_fullmatch {s post : List Char}
    (h : fullmatchEmail s = true) : (matchEmailAt (s ++ post)).isSome := by
  obtain ⟨lp, d, t, rfl, hlp, hlp_all, hd1, hd_all, ht_all, ht2⟩ :=
    fullmatchEmail_elim h
  exact matchEmailAt_isSome_intro hlp hlp_all hd1 hd_all ht_all ht2

theorem matchEmailAt_nil : matchEmailAt [] = none := rfl

theorem searchEmail_isSome_append {l : List Char} (pre : List Char)
    (h : (matchEmailAt l).isSome) : (searchEmail (pre ++ l)).isSome := by
  induction pre with
  | nil =>
    cases l with
    | nil => rw [matchEmailAt_nil] at h; cases h
    | cons c cs =>
      rw [List.nil_append, searchEmail]
      obtain ⟨m, hm⟩ := Option.isSome_iff_exists.mp h
      rw [hm]
      rfl
  | cons a pre ih =>
    rw [List.cons_append, searchEmail]
    cases hma : matchEmailAt (a :: (pre ++ l)) with
    | some m => rfl
    | none => exact ih

theorem searchEmail_eq_some_spec {l m : List Char} (h : searchEmail l = some m) :
    ∃ i, matchEmailAt (l.drop i) = some m ∧
      ∀ j, j < i → matchEmailAt (l.drop j) = none := by
  induction l with
  | nil => rw [searchEmail] at h; cases h
  | cons c cs ih =>
    rw [searchEmail] at h
    cases hma : matchEmailAt (c :: cs) with
    | some m' =>
      rw [hma] at h
      injection h with h
      subst h
      exact ⟨0, hma, fun j hj => absurd hj (Nat.not_lt_zero j)⟩
    | none =>
      rw [hma] at h
      obtain ⟨i, h1, h2⟩ := ih h
      refine ⟨i + 1, by simpa using h1, ?_⟩
      intro j hj
      cases j with
      | zero => simpa using hma
      | succ j' =>
        rw [List.drop_succ_cons]
        exact h2 j' (by omega)

/-! ### Claim theorems: email extractor -/

/-- Claim C7: the text email extractor returns `none` exactly when no
substring of the text fully matches the email pattern (no boundary false
positives), and otherwise returns the leftmost match lowercased, a string
that itself fully matches the pattern. -/
theorem claim_C7_email_extractor (texto : List Char) :
    (extraerPrimerEmail texto = none →
      ∀ pre s post, texto = pre ++ s ++ post → fullmatchEmail s = false) ∧
    (∀ e, extraerPrimerEmail texto = some e →
      fullmatchEmail e = true ∧
      ∃ i m, matchEmailAt (texto.drop i) = some m ∧ e = m.map Char.toLower ∧
        ∀ j, j < i → matchEmailAt (texto.drop j) = none) := by
  constructor
  · intro hn pre s post heq
    cases hfm : fullmatchEmail s with
    | false => rfl
    | true =>
      exfalso
      have hsome : (searchEmail texto).isSome := by
        rw [heq, List.append_assoc]
        exact searchEmail_isSome_append pre (matchEmailAt_isSome_of_fullmatch hfm)
      obtain ⟨m, hm⟩ := Option.isSome_iff_exists.mp hsome
      obtain ⟨i, h1, _⟩ := searchEmail_eq_some_spec hm
      rw [extraerPrimerEmail, hm] at hn
      have hn2 : (if fullmatchEmail (m.map Char.toLower) = true then
          some (m.map Char.toLower) else none) = none := hn
      rw [if_pos (fullmatch_toLower_of_matchAt h1)] at hn2
      cases hn2
  · intro e he
    rw [extraerPrimerEmail] at he
    cases hs : searchEmail texto with
    | none => rw [hs] at he; cases he
    | some m =>
      rw [hs] at he
      have he2 : (if fullmatchEmail (m.map Char.toLower) = true then
          some (m.map Char.toLower) else none) = some e := he
      split at he2
      · rename_i hfm
        injection he2 with he2
        obtain ⟨i, h1, h2⟩ := searchEmail_eq_some_spec hs
        subst he2
        exact ⟨hfm, i, m, h1, rfl, h2⟩
      · cases he2

theorem claim_C7_witness :
    extraerPrimerEmail "Write to Foo@Bar.com today".data =
        some "foo@bar.com".data ∧
    fullmatchEmail "foo@bar.com".data = true ∧
    extraerPrimerEmail "no address here".data = none ∧
    fullmatchEmail "address her".data = false :=
  ⟨by decide,
    ((claim_C7_email_extractor "Write to Foo@Bar.com today".data).2
      "foo@bar.com".data (by decide)).1,
    by decide,
    (claim_C7_email_extractor "no address here".data).1 (by decide)
      "no ".data "address her".data "e".data (by decide)⟩

/-! ### Helper lemmas: findSome? -/

theorem findSome?_isSome_of_mem {α β : Type} {f : α → Option β} {l : List α}
    {a : α} (ha : a ∈ l) (hb : (f a).isSome) : (l.findSome? f).isSome := by
  induction l with
  | nil => cases ha
  | cons c t ih =>
    rw [List.findSome?_cons]
    cases hc : f c with
    | some b => rfl
    | none =>
      rcases List.mem_cons.mp ha with rfl | ha'
      · rw [hc] at hb; cases hb
      · exact ih ha'

theorem exists_mem_of_findSome?_eq_some {α β : Type} {f : α → Option β}
    {l : List α} {b : β} (h : l.findSome? f = some b) :
    ∃ a ∈ l, f a = some b := by
  induction l with
  | nil => rw [List.findSome?_nil] at h; cases h
  | cons c t ih =>
    rw [List.findSome?_cons] at h
    cases hc : f c with
    | some b' =>
      rw [hc] at h
      injection h with h
      exact ⟨c, by simp, by rw [hc, h]⟩
    | none =>
      rw [hc] at h
      obtain ⟨a, ha, hfa⟩ := ih h
      exact ⟨a, by simp [ha], hfa⟩

/-! ### Claim theorems: fast-path mailto priority -/

/-- Claim C6: when the fetched page has an anchor whose `mailto:` target is a
valid email (prefix stripped, query removed, trimmed, lowercased by
`mailto_email_of_href`) and the page text also contains a valid email, the
fast-path extractor returns the target of a `mailto:` anchor, not the
free-text match. -/
theorem claim_C6_mailto_priority (anchors : List (List Char))
    (texto : List Char)
    (hm : ∃ a ∈ anchors, (mailto_email_of_href a).isSome)
    (ht : (extraerPrimerEmail texto).isSome) :
    ∃ a e, a ∈ anchors ∧ mailto_email_of_href a = some e ∧
      buscar_primer_email_requests anchors texto = some e := by
  obtain ⟨a0, ha0, hs0⟩ := hm
  have hfs : (anchors.findSome? mailto_email_of_href).isSome :=
    findSome?_isSome_of_mem ha0 hs0
  obtain ⟨e, he⟩ := Option.isSome_iff_exists.mp hfs
  obtain ⟨a, ha, hae⟩ := exists_mem_of_findSome?_eq_some he
  refine ⟨a, e, ha, hae, ?_⟩
  rw [buscar_primer_email_requests, he]

theorem claim_C6_witness :
    (∃ a ∈ ["MAILTO:Info@X.com?subject=hi".data], (mailto_email_of_href a).isSome) ∧
    (extraerPrimerEmail "reach a@b.co".data).isSome ∧
    (∃ a e, a ∈ ["MAILTO:Info@X.com?subject=hi".data] ∧
      mailto_email_of_href a = some e ∧
      buscar_primer_email_requests ["MAILTO:Info@X.com?subject=hi".data]
        "reach a@b.co".data = some e) :=
  ⟨by decide, by decide,
    claim_C6_mailto_priority _ _ (by decide) (by decide)⟩

/-! ### Helper lemmas: deep-path visiting loop -/

theorem deepLoop_found (fetch : List Char → Option PageModel)
    (enum : List (List Char)) (acc : DeepAcc)
    (h : acc.email_final.isSome) : deepLoop fetch enum acc = acc := by
  cases enum with
  | nil => rfl
  | cons u rest => rw [deepLoop, if_pos h]

theorem deepLoop_email (fetch : List Char → Option PageModel) :
    ∀ (enum : List (List Char)) (acc : DeepAcc), acc.email_final = none →
      (deepLoop fetch enum acc).email_final =
        enum.findSome? (emailOfVisit fetch) := by
  intro enum
  induction enum with
  | nil =>
    intro acc h
    rw [deepLoop, List.findSome?_nil, h]
  | cons u rest ih =>
    intro acc h
    rw [deepLoop, if_neg (by rw [h]; exact Bool.false_ne_true)]
    split
    · rename_i hf
      rw [List.findSome?_cons,
        show emailOfVisit fetch u = none by simp [emailOfVisit, hf]]
      apply ih
      exact h
    · rename_i page hf
      split
      · rename_i e he
        rw [deepLoop_found fetch rest
            { acc with visited := acc.visited ++ [u], email_final := some e }
            rfl,
          List.findSome?_cons,
          show emailOfVisit fetch u = some e by simp [emailOfVisit, hf, he]]
      · rename_i he
        rw [List.findSome?_cons,
          show emailOfVisit fetch u = none by simp [emailOfVisit, hf, he]]
        apply ih
        exact h

theorem deepLoop_visited (fetch : List Char → Option PageModel) :
    ∀ (enum : List (List Char)) (acc : DeepAcc), acc.email_final = none →
      (deepLoop fetch enum acc).visited =
        acc.visited ++ visitedUpToFirstEmail fetch enum := by
  intro enum
  induction enum with
  | nil =>
    intro acc h
    rw [deepLoop, visitedUpToFirstEmail, List.append_nil]
  | cons u rest ih =>
    intro acc h
    rw [deepLoop, if_neg (by rw [h]; exact Bool.false_ne_true)]
    split
    · rename_i hf
      rw [ih { acc with visited := acc.visited ++ [u] } h, visitedUpToFirstEmail,
        show emailOfVisit fetch u = none by simp [emailOfVisit, hf]]
      simp
    · rename_i page hf
      split
      · rename_i e he
        rw [deepLoop_found fetch rest
            { acc with visited := acc.visited ++ [u], email_final := some e }
            rfl,
          visitedUpToFirstEmail,
          show emailOfVisit fetch u = some e by simp [emailOfVisit, hf, he]]
        simp
      · rename_i he
        rw [ih
            { acc with
              visited := acc.visited ++ [u]
              facebook_links_final :=
                (buscar_facebook_links page.anchors u).foldl addSet
                  acc.facebook_links_final } h,
          visitedUpToFirstEmail,
          show emailOfVisit fetch u = none by simp [emailOfVisit, hf, he]]
        simp

/-! ### Claim theorems: deep-path visiting order -/

/-- Claim C3 counterexample: two valid enumerations of the same base URL's
candidate set (a permutation relation certifies validity) make the deep path
visit a different first URL and return a different email, so the visiting
order is neither the configured list order nor deterministic across runs —
Python enumerates `urls_a_visitar` as a hash-ordered `set`. -/
theorem claim_C3_cex :
    ("http://ex.com/contact".data :: "http://ex.com".data ::
        (candidate_urls "http://ex.com".data).drop 2).Perm
      (candidate_urls "http://ex.com".data) ∧
    (buscar_datos_contacto_selenium fetchTwoEmails
        (candidate_urls "http://ex.com".data)).1 = some "home@ex.com".data ∧
    (buscar_datos_contacto_selenium fetchTwoEmails
        ("http://ex.com/contact".data :: "http://ex.com".data ::
          (candidate_urls "http://ex.com".data).drop 2)).1 =
      some "contact@ex.com".data ∧
    (deepLoop fetchTwoEmails
        ("http://ex.com/contact".data :: "http://ex.com".data ::
          (candidate_urls "http://ex.com".data).drop 2)
        ⟨none, [], []⟩).visited.head? = some "http://ex.com/contact".data ∧
    (candidate_urls "http://ex.com".data).head? = some "http://ex.com".data :=
  ⟨by decide, by decide, by decide, by decide, by decide⟩

/-- Claim C3 (amended): over whatever enumeration the candidate-URL set
yields, the deep path visits candidates in that enumeration order, stops at
the first candidate whose rendered page contains an email, and returns that
email (first-match-wins). -/
theorem claim_C3_first_match_wins (fetch : List Char → Option PageModel)
    (enum : List (List Char)) :
    (buscar_datos_contacto_selenium fetch enum).1 =
      enum.findSome? (emailOfVisit fetch) ∧
    (deepLoop fetch enum ⟨none, [], []⟩).visited =
      visitedUpToFirstEmail fetch enum := by
  constructor
  · exact deepLoop_email fetch enum ⟨none, [], []⟩ rfl
  · have h := deepLoop_visited fetch enum ⟨none, [], []⟩ rfl
    rw [h]
    rfl

/-! ### Helper lemmas: Facebook link extractor -/

theorem begins_refl (l : List Char) : begins l l = true :=
  begins_iff_append.mpr ⟨[], (List.append_nil l).symm⟩

theorem seg_pred {c : Char} (h : isSegChar c = true) :
    (c != '?' && c != '#') = true := by
  rw [Bool.and_eq_true, bne_iff_ne, bne_iff_ne]
  constructor
  · rintro rfl; exact absurd h (by decide)
  · rintro rfl; exact absurd h (by decide)

theorem seg_not_slash {c : Char} (h : isSegChar c = true) : (c == '/') = false := by
  rw [beq_eq_false_iff_ne]
  rintro rfl
  exact absurd h (by decide)

theorem fbDeny_of_begins {rest : List Char} {d : String}
    (hd : d ∈ FB_DENY_STRINGS) (hb : begins d.data rest = true) :
    fbDeny rest = true := by
  unfold fbDeny
  rw [Bool.or_eq_true]
  left
  rw [List.any_eq_true]
  exact ⟨d, hd, hb⟩

theorem fbStep_mem {base : List Char} {links : List (List Char)}
    {href u : List Char} (h : u ∈ fbStep base links href) :
    u ∈ links ∨
      (u = urljoinModel base href ∧ fbMatch u = true ∧
        stripSlash (urlPath u) ≠ [] ∧
        stripSlash (urlPath u) ∉ ["facebook".data, "pg".data, "profile.php".data]) := by
  unfold fbStep at h
  split at h
  · rename_i hmatch
    split at h
    · rename_i hfilter
      rcases addSet_mem h with h' | h'
      · exact Or.inl h'
      · subst h'
        exact Or.inr ⟨rfl, hmatch, hfilter.1, hfilter.2⟩
    · exact Or.inl h
  · exact Or.inl h

theorem fb_fold_mem {base : List Char} :
    ∀ (anchors init : List (List Char)) (u : List Char),
      u ∈ anchors.foldl (fbStep base) init →
      u ∈ init ∨
        ∃ a ∈ anchors, u = urljoinModel base a ∧ fbMatch u = true ∧
          stripSlash (urlPath u) ≠ [] ∧
          stripSlash (urlPath u) ∉ ["facebook".data, "pg".data, "profile.php".data] := by
  intro anchors
  induction anchors with
  | nil => intro init u h; exact Or.inl h
  | cons a t ih =>
    intro init u h
    rw [List.foldl_cons] at h
    rcases ih _ u h with h' | ⟨a', ha', rest⟩
    · rcases fbStep_mem h' with h'' | h''
      · exact Or.inl h''
      · exact Or.inr ⟨a, by simp, h''⟩
    · exact Or.inr ⟨a', by simp [ha'], rest⟩

theorem fbStep_nodup {base : List Char} {links : List (List Char)}
    (href : List Char) (h : links.Nodup) : (fbStep base links href).Nodup := by
  unfold fbStep
  split
  · split
    · exact addSet_nodup _ h
    · exact h
  · exact h

theorem fb_fold_nodup {base : List Char} :
    ∀ (anchors init : List (List Char)), init.Nodup →
      (anchors.foldl (fbStep base) init).Nodup := by
  intro anchors
  induction anchors with
  | nil => intro init h; exact h
  | cons a t ih =>
    intro init h
    rw [List.foldl_cons]
    exact ih _ (fbStep_nodup a h)

theorem fbMatch_elim {u : List Char} (h : fbMatch u = true) :
    ∃ p ∈ FB_URL_STARTS, begins p.data u = true ∧
      fbDeny (u.drop p.data.length) = false ∧
      ∃ c cs, u.drop p.data.length = c :: cs ∧ isSegChar c = true := by
  unfold fbMatch at h
  cases hr : fbRest u with
  | none => rw [hr] at h; cases h
  | some rest =>
    rw [hr, Bool.and_eq_true] at h
    obtain ⟨hnd, hhead⟩ := h
    obtain ⟨p, hp, hpp⟩ := exists_mem_of_findSome?_eq_some hr
    split at hpp
    · rename_i hbeg
      injection hpp with hpp
      subst hpp
      refine ⟨p, hp, hbeg, by rwa [Bool.not_eq_true'] at hnd, ?_⟩
      cases hrest : u.drop p.data.length with
      | nil =>
        rw [hrest] at hhead
        cases hhead
      | cons c cs =>
        rw [hrest] at hhead
        exact ⟨c, cs, rfl, hhead⟩
    · cases hpp 

theorem urlPath_fb (p : String) (hp : p ∈ FB_URL_STARTS) (rest : List Char) :
    urlPath (p.data ++ rest) = '/' :: takeUntilQF rest := by
  fin_cases hp <;> rfl

theorem no_deny_begins_path {p : String} (hp : p ∈ FB_URL_STARTS)
    {u : List Char} {c : Char} {cs : List Char}
    (hu : u = p.data ++ (c :: cs)) (hseg : isSegChar c = true)
    (hdeny : fbDeny (c :: cs) = false) {d : String}
    (hd : d ∈ FB_DENY_STRINGS) :
    begins d.data (stripSlash (urlPath u)) = false := by
  cases hb : begins d.data (stripSlash (urlPath u)) with
  | false => rfl
  | true =>
    exfalso
    rw [hu, urlPath_fb p hp] at hb
    have hT : takeUntilQF (c :: cs)
        = c :: cs.takeWhile (fun x => x != '?' && x != '#') := by
      unfold takeUntilQF
      rw [List.takeWhile_cons, if_pos (seg_pred hseg)]
    have hTb : begins (takeUntilQF (c :: cs)) (c :: cs) = true :=
      takeWhile_begins _ _
    rw [hT] at hb hTb
    unfold stripSlash at hb
    rw [List.dropWhile_cons, if_pos (show (('/' : Char) == '/') = true from rfl),
      List.dropWhile_cons,
      if_neg (by rw [seg_not_slash hseg]; exact Bool.false_ne_true)] at hb
    have hb2 : begins d.data
        (c :: cs.takeWhile (fun x => x != '?' && x != '#')) = true :=
      begins_trans hb (dropTrailingIf_begins _ _)
    have hb3 : begins d.data (c :: cs) = true := begins_trans hb2 hTb
    exact absurd (fbDeny_of_begins hd hb3)
      (by rw [hdeny]; exact Bool.false_ne_true)

/-! ### Claim theorems: social-link extractor -/

/-- Claim C8: every URL returned by the social-link extractor avoids the
denylisted functional segments (its slash-trimmed path neither equals nor
opens a denylisted name as a path segment), has a non-empty slash-trimmed
path that is not a generic placeholder, and is an absolute Facebook URL
obtained by resolving some anchor of the page against the base URL; the
result also holds no duplicate URLs. -/
theorem claim_C8_social_link_filter (anchors : List (List Char))
    (base : List Char) :
    (buscar_facebook_links anchors base).Nodup ∧
    ∀ u ∈ buscar_facebook_links anchors base,
      (∀ d ∈ FB_DENY_STRINGS,
        stripSlash (urlPath u) ≠ d.data ∧
        begins (d.data ++ ['/']) (stripSlash (urlPath u)) = false) ∧
      stripSlash (urlPath u) ≠ [] ∧
      stripSlash (urlPath u) ∉ ["facebook".data, "pg".data, "profile.php".data] ∧
      (∃ p ∈ FB_URL_STARTS, begins p.data u = true) ∧
      (∃ a ∈ anchors, u = urljoinModel base a) := by
  constructor
  · exact fb_fold_nodup anchors [] List.nodup_nil
  · intro u hu
    rcases fb_fold_mem anchors [] u hu with h | ⟨a, ha, hua, hmatch, hne, hnot⟩
    · cases h
    obtain ⟨p, hp, hbeg, hdeny, c, cs, hrest, hseg⟩ := fbMatch_elim hmatch
    have hu_eq : u = p.data ++ (c :: cs) := by
      obtain ⟨tail, ht⟩ := begins_iff_append.mp hbeg
      have hdl := List.drop_left p.data tail
      rw [← ht] at hdl
      rw [hdl] at hrest
      rw [ht, hrest]
    have hdeny2 : fbDeny (c :: cs) = false := by rw [← hrest]; exact hdeny
    refine ⟨?_, hne, hnot, ⟨p, hp, hbeg⟩, ⟨a, ha, hua⟩⟩
    intro d hd
    have hmaster := no_deny_begins_path hp hu_eq hseg hdeny2 hd
    constructor
    · intro heq
      rw [heq] at hmaster
      rw [begins_refl] at hmaster
      cases hmaster
    · cases hbb : begins (d.data ++ ['/']) (stripSlash (urlPath u)) with
      | false => rfl
      | true =>
        exfalso
        rw [begins_of_append_left hbb] at hmaster
        cases hmaster

theorem claim_C8_witness :
    ("https://facebook.com/JoePlumber".data ∈
      buscar_facebook_links
        ["https://facebook.com/JoePlumber".data,
          "https://www.facebook.com/sharer/sharer.php?u=1".data]
        "http://biz.example".data) ∧
    ((∀ d ∈ FB_DENY_STRINGS,
        stripSlash (urlPath "https://facebook.com/JoePlumber".data) ≠ d.data ∧
        begins (d.data ++ ['/'])
          (stripSlash (urlPath "https://facebook.com/JoePlumber".data)) = false) ∧
      stripSlash (urlPath "https://facebook.com/JoePlumber".data) ≠ [] ∧
      stripSlash (urlPath "https://facebook.com/JoePlumber".data) ∉
        ["facebook".data, "pg".data, "profile.php".data] ∧
      (∃ p ∈ FB_URL_STARTS,
        begins p.data "https://facebook.com/JoePlumber".data = true) ∧
      (∃ a ∈ ["https://facebook.com/JoePlumber".data,
          "https://www.facebook.com/sharer/sharer.php?u=1".data],
        "https://facebook.com/JoePlumber".data =
          urljoinModel "http://biz.example".data a)) :=
  ⟨by decide,
    (claim_C8_social_link_filter
        ["https://facebook.com/JoePlumber".data,
          "https://www.facebook.com/sharer/sharer.php?u=1".data]
        "http://biz.example".data).2
      "https://facebook.com/JoePlumber".data (by decide)⟩

/-! ### Helper lemmas: record enrichment -/

theorem dictSet_absent {d : List (String × JVal)} {k : String} {v : JVal}
    (h : ∀ kv ∈ d, kv.1 ≠ k) : dictSet d k v = d ++ [(k, v)] := by
  unfold dictSet
  rw [if_neg]
  intro hany
  rw [List.any_eq_true] at hany
  obtain ⟨kv, hkv, hb⟩ := hany
  exact h kv hkv (by rwa [beq_iff_eq] at hb)

theorem dictSet3_absent {b : List (String × JVal)} {v1 v2 v3 : JVal}
    (h : ∀ kv ∈ b, kv.1 ≠ "email_encontrado" ∧
      kv.1 ≠ "facebook_links_encontrados" ∧ kv.1 ≠ "metodo_extraccion") :
    dictSet (dictSet (dictSet b "email_encontrado" v1)
        "facebook_links_encontrados" v2) "metodo_extraccion" v3 =
      b ++ [("email_encontrado", v1), ("facebook_links_encontrados", v2),
        ("metodo_extraccion", v3)] := by
  have h1 : dictSet b "email_encontrado" v1 = b ++ [("email_encontrado", v1)] :=
    dictSet_absent (fun kv hkv => (h kv hkv).1)
  have h2 : dictSet (b ++ [("email_encontrado", v1)])
      "facebook_links_encontrados" v2 =
      (b ++ [("email_encontrado", v1)]) ++ [("facebook_links_encontrados", v2)] := by
    apply dictSet_absent
    intro kv hkv
    rcases List.mem_append.mp hkv with h' | h'
    · exact (h kv h').2.1
    · simp only [List.mem_singleton] at h'
      subst h'
      exact (by decide :
        ("email_encontrado" : String) ≠ "facebook_links_encontrados")
  have h3 : dictSet ((b ++ [("email_encontrado", v1)]) ++
        [("facebook_links_encontrados", v2)]) "metodo_extraccion" v3 =
      ((b ++ [("email_encontrado", v1)]) ++ [("facebook_links_encontrados", v2)])
        ++ [("metodo_extraccion", v3)] := by
    apply dictSet_absent
    intro kv hkv
    rcases List.mem_append.mp hkv with h' | h'
    · rcases List.mem_append.mp h' with h'' | h''
      · exact (h kv h'').2.2
      · simp only [List.mem_singleton] at h''
        subst h''
        exact (by decide : ("email_encontrado" : String) ≠ "metodo_extraccion")
    · simp only [List.mem_singleton] at h'
      subst h'
      exact (by decide :
        ("facebook_links_encontrados" : String) ≠ "metodo_extraccion")
  rw [h1, h2, h3]
  simp [List.append_assoc]

theorem enrich_eq_append (fast : String → Option PageModel)
    (deepFetch : List Char → Option PageModel)
    (enumOf : String → List (List Char)) (driverOk : Bool)
    {b : List (String × JVal)}
    (h : ∀ kv ∈ b, kv.1 ≠ "email_encontrado" ∧
      kv.1 ≠ "facebook_links_encontrados" ∧ kv.1 ≠ "metodo_extraccion") :
    ∃ em fb meth,
      enrich fast deepFetch enumOf driverOk b =
        b ++ [("email_encontrado", em),
          ("facebook_links_encontrados", JVal.links fb),
          ("metodo_extraccion", JVal.s meth)] ∧
      (em = JVal.jnull ∨ ∃ s, em = JVal.s s) := by
  refine ⟨(match (resolve_contact fast deepFetch enumOf driverOk
        (dictGet b "website")).1 with
      | some e => JVal.s (String.mk e)
      | none => JVal.jnull),
    (resolve_contact fast deepFetch enumOf driverOk
        (dictGet b "website")).2.1.map String.mk,
    (resolve_contact fast deepFetch enumOf driverOk
        (dictGet b "website")).2.2, ?_, ?_⟩
  · unfold enrich
    exact dictSet3_absent h
  · cases hre : (resolve_contact fast deepFetch enumOf driverOk
        (dictGet b "website")).1 with
    | none => exact Or.inl rfl
    | some e => exact Or.inr ⟨String.mk e, rfl⟩

/-! ### Claim theorems: stage output shape and CLI behavior -/

/-- Claim C9 counterexample: an input record that already contains the key
`email_encontrado` has that pair overwritten (Python dict assignment), so the
output record does not contain every input key-value pair unchanged. -/
theorem claim_C9_cex :
    ("email_encontrado", JVal.s "keep") ∈
      ([(("email_encontrado" : String), JVal.s "keep")] : List (String × JVal)) ∧
    ("email_encontrado", JVal.s "keep") ∉
      (procesar_negocios (Except.ok [[(("email_encontrado" : String), JVal.s "keep")]])
        (fun _ => none) (fun _ => none) (fun _ => []) true).getD 0 [] :=
  ⟨by decide, by decide⟩

/-- Claim C9 (amended): provided the input records do not already use the
three reserved output keys, the stage output has the same length and order as
the input, and each output record is the corresponding input record with all
its pairs unchanged plus exactly the three new fields — email (string or
null), the sequence of found social links, and the extraction-method
string. -/
theorem claim_C9_output_shape (bs : List (List (String × JVal)))
    (fast : String → Option PageModel) (deepFetch : List Char → Option PageModel)
    (enumOf : String → List (List Char)) (driverOk : Bool)
    (h : ∀ b ∈ bs, ∀ kv ∈ b, kv.1 ≠ "email_encontrado" ∧
      kv.1 ≠ "facebook_links_encontrados" ∧ kv.1 ≠ "metodo_extraccion") :
    (procesar_negocios (.ok bs) fast deepFetch enumOf driverOk).length =
      bs.length ∧
    ∀ i, i < bs.length →
      ∃ em fb meth,
        (procesar_negocios (.ok bs) fast deepFetch enumOf driverOk).getD i [] =
          bs.getD i [] ++
            [("email_encontrado", em),
             ("facebook_links_encontrados", JVal.links fb),
             ("metodo_extraccion", JVal.s meth)] ∧
        (em = JVal.jnull ∨ ∃ s, em = JVal.s s) := by
  constructor
  · show (bs.map (enrich fast deepFetch enumOf driverOk)).length = bs.length
    rw [List.length_map]
  · intro i hi
    have h1 : (procesar_negocios (.ok bs) fast deepFetch enumOf driverOk).getD i []
        = enrich fast deepFetch enumOf driverOk (bs.getD i []) := by
      show (bs.map (enrich fast deepFetch enumOf driverOk)).getD i [] = _
      rw [List.getD_eq_getElem _ _ (by rw [List.length_map]; exact hi),
        List.getD_eq_getElem _ _ hi, List.getElem_map]
    rw [h1]
    refine enrich_eq_append fast deepFetch enumOf driverOk (h _ ?_)
    rw [List.getD_eq_getElem _ _ hi]
    exact List.getElem_mem _

theorem claim_C9_witness :
    (∀ b ∈ ([[(("nombre" : String), JVal.s "Acme")]] :
        List (List (String × JVal))), ∀ kv ∈ b,
      kv.1 ≠ "email_encontrado" ∧ kv.1 ≠ "facebook_links_encontrados" ∧
        kv.1 ≠ "metodo_extraccion") ∧
    ((procesar_negocios (.ok [[(("nombre" : String), JVal.s "Acme")]])
        (fun _ => none) (fun _ => none) (fun _ => []) true).length =
      ([[(("nombre" : String), JVal.s "Acme")]] :
        List (List (String × JVal))).length ∧
     ∀ i, i < ([[(("nombre" : String), JVal.s "Acme")]] :
        List (List (String × JVal))).length →
      ∃ em fb meth,
        (procesar_negocios (.ok [[(("nombre" : String), JVal.s "Acme")]])
          (fun _ => none) (fun _ => none) (fun _ => []) true).getD i [] =
          ([[(("nombre" : String), JVal.s "Acme")]] :
            List (List (String × JVal))).getD i [] ++
            [("email_encontrado", em),
             ("facebook_links_encontrados", JVal.links fb),
             ("metodo_extraccion", JVal.s meth)] ∧
        (em = JVal.jnull ∨ ∃ s, em = JVal.s s)) :=
  ⟨by decide,
    claim_C9_output_shape [[(("nombre" : String), JVal.s "Acme")]]
      (fun _ => none) (fun _ => none) (fun _ => []) true (by decide)⟩

/-- Claim C2 counterexample: on a missing input file the error is caught and
reported inside `procesar_negocios`, `main` runs to completion, and the
process exits `0` — not non-zero as claimed. -/
theorem claim_C2_cex :
    (main_model
      (Except.error ⟨"negocios.json", "FileNotFoundError: [Errno 2] No such file or directory"⟩)
      (fun _ => none) (fun _ => none) (fun _ => []) true).exit_code = 0 :=
  rfl

/-- Claim C2 (amended): every run of the contact-finder stage exits `0`.  On
a missing or malformed JSON input the offending path and underlying cause are
reported and no output file is written (the failure is observable to the
orchestrator only through the absence of the output file); on a successful
run the process likewise exits `0`, even when zero records matched the
enrichment criteria, with no input error reported. -/
theorem claim_C2_exit_and_reporting
    (input : Except LoadErr (List (List (String × JVal))))
    (fast : String → Option PageModel) (deepFetch : List Char → Option PageModel)
    (enumOf : String → List (List Char)) (driverOk : Bool) :
    (main_model input fast deepFetch enumOf driverOk).exit_code = 0 ∧
    (∀ e, input = .error e →
      (main_model input fast deepFetch enumOf driverOk).reported_input_error =
          some e ∧
        (main_model input fast deepFetch enumOf driverOk).output_written = none) ∧
    (∀ bs, input = .ok bs →
      (main_model input fast deepFetch enumOf driverOk).reported_input_error =
        none) := by
  refine ⟨rfl, ?_, ?_⟩
  · rintro e rfl
    exact ⟨rfl, rfl⟩
  · rintro bs rfl
    rfl

theorem claim_C2_witness :
    (main_model (Except.error ⟨"negocios.json", "FileNotFoundError"⟩)
      (fun _ => none) (fun _ => none) (fun _ => []) true).exit_code = 0 ∧
    (main_model (Except.error ⟨"negocios.json", "FileNotFoundError"⟩)
      (fun _ => none) (fun _ => none) (fun _ => []) true).reported_input_error =
      some ⟨"negocios.json", "FileNotFoundError"⟩ ∧
    (main_model (Except.error ⟨"negocios.json", "FileNotFoundError"⟩)
      (fun _ => none) (fun _ => none) (fun _ => []) true).output_written = none := by
  obtain ⟨h1, h2, h3⟩ := claim_C2_exit_and_reporting
    (Except.error ⟨"negocios.json", "FileNotFoundError"⟩)
    (fun _ => none) (fun _ => none) (fun _ => []) true
  obtain ⟨h2a, h2b⟩ := h2 ⟨"negocios.json", "FileNotFoundError"⟩ rfl
  exact ⟨h1, h2a, h2b⟩
